import Mathlib

/-!
# gocsv-routine: CSV to JSON conversion

A shallow embedding of `main.go`: the line estimator `evaluateTotalLines`, the
producer goroutine `readAndParseCSV`, the writer goroutine `writeJSON`, and the
command line handling and orchestration of `main`.

Conventions of the embedding.

* Go strings are modelled by Lean `String` (valid UTF-8 text).
* `strings.ToLower` is a parameter `toLower : String → String` of the definitions that
  use it, so every general theorem holds for Go's Unicode lower-casing; concrete
  evaluations on ASCII text use `asciiToLower`.
* The files are not modelled as byte sequences. The producer sees the sequence of
  records the CSV tokenizer finds (`RawRead`), on top of which the field-count
  bookkeeping of `csv.Reader.Read` is modelled (`csvRead`); the estimator sees the tokens
  of `bufio.Scanner` (`ScanInput`), with `scanFrom` modelling the scanner on a text.
* A goroutine is a sequential process; the three goroutines of a run (main, producer,
  writer) are composed by an interleaving step function `next` over the state `Sys`, in
  which a send on the unbuffered channel `lines` is a rendezvous with the receiving writer.
-/

namespace GoCsvRoutine

/-! ## Errors and printed lines -/

/-- Go `error` values, distinguished as far as the program does: `io.EOF`, the
field-count error of `encoding/csv` (a `*csv.ParseError` wrapping `csv.ErrFieldCount`,
message `record on line N: wrong number of fields`), and any other error, by message. -/
inductive Err where
  | eof
  | fieldCount
  | other (msg : String)
  deriving DecidableEq, Repr

/-- The test `err.Error() == "EOF"` of `readAndParseCSV` (main.go line 41). -/
def Err.isEOF : Err → Bool
  | .eof => true
  | .fieldCount => false
  | .other msg => msg == "EOF"

/-- One line printed on standard output. `failure label err` is
`fmt.Println(label, err)`; `estimated n` is the `Estimated total lines: %d` line,
`fileName p` the `File name: %s` line and `processingTime` the
`Processing time: %.2f seconds` line (the elapsed time is not modelled). -/
inductive Out where
  | text (s : String)
  | failure (label : String) (err : Err)
  | estimated (n : Int)
  | fileName (path : String)
  | processingTime
  deriving DecidableEq, Repr

/-! ## Rows: `map[string]interface{}` holding strings -/

/-- A row is a Go map from string keys to string values, kept as an association list
in which `Row.set` never introduces a second entry for a key. -/
abbrev Row := List (String × String)

/-- The map assignment `row[key] = value`: overwrite the entry of `key` if there is one,
add an entry otherwise. -/
def Row.set : Row → String → String → Row
  | [], key, value => [(key, value)]
  | (k, v) :: rest, key, value =>
    if k = key then (k, value) :: rest else (k, v) :: Row.set rest key value

/-- The map lookup `row[key]` with the comma-ok result. -/
def Row.get? : Row → String → Option String
  | [], _ => none
  | (k, v) :: rest, key => if k = key then some v else Row.get? rest key

/-- The keys of a row. -/
def Row.keys (row : Row) : List String := row.map Prod.fst

/-- ASCII lower-casing; it agrees with `strings.ToLower` on ASCII strings. -/
def asciiToLower (s : String) : String := String.mk (s.data.map Char.toLower)

/-- The loop of main.go lines 49-52,
`for i, value := range record { key := strings.ToLower(headers[i]); row[key] = value }`,
from index `i` on. The result is `none` when `headers[i]` is out of range, where Go
panics with an index-out-of-range runtime error. -/
def buildRowFrom (toLower : String → String) (headers : List String) :
    Nat → List String → Row → Option Row
  | _, [], row => some row
  | i, value :: rest, row =>
    match headers[i]? with
    | none => none
    | some h => buildRowFrom toLower headers (i + 1) rest (row.set (toLower h) value)

/-- The row built for one record, main.go lines 48-52: `row := make(map...)` and the loop. -/
def buildRow (toLower : String → String) (headers record : List String) : Option Row :=
  buildRowFrom toLower headers 0 record []

/-! ## The CSV reader -/

/-- What the tokenizer of `csv.Reader` finds next in the input: a record (a list of
fields), or a failure (a syntax error or an I/O error). The end of the list of raw
reads is the end of the input, where `Read` returns `io.EOF`. -/
inductive RawRead where
  | record (fields : List String)
  | failure (err : Err)
  deriving DecidableEq, Repr

/-- One call of `csv.Reader.Read` on a non-exhausted input, given the current value of
the reader's `FieldsPerRecord` (`0` in a reader made by `csv.NewReader`): when
`FieldsPerRecord` is positive a record with another number of fields is returned with
`csv.ErrFieldCount`; when it is `0` it is set to the number of fields of the record,
"so that future records must have the same field count" (package documentation).
The result is the outcome of `Read` and the new `FieldsPerRecord`. -/
def csvRead (fieldsPerRecord : Int) : RawRead → Except Err (List String) × Int
  | .failure err => (.error err, fieldsPerRecord)
  | .record fields =>
    if 0 < fieldsPerRecord then
      if (fields.length : Int) ≠ fieldsPerRecord then (.error .fieldCount, fieldsPerRecord)
      else (.ok fields, fieldsPerRecord)
    else if fieldsPerRecord = 0 then (.ok fields, (fields.length : Int))
    else (.ok fields, fieldsPerRecord)

/-- The outcomes of the successive calls of `Read` on an input, until it is exhausted
(every later call returns `io.EOF`). -/
def readOutcomes : Int → List RawRead → List (Except Err (List String))
  | _, [] => []
  | fieldsPerRecord, raw :: rest =>
    (csvRead fieldsPerRecord raw).1 :: readOutcomes (csvRead fieldsPerRecord raw).2 rest

/-- The input file as `readAndParseCSV` finds it: the error of `os.Open`, if any, and
the raw reads of the file's content. -/
structure CsvFile where
  openErr : Option Err
  raws : List RawRead

/-! ## The producer `readAndParseCSV` -/

/-- The actions of the producer goroutine, in program order. `crash` is the abort of the
process by a runtime panic, after the deferred calls have run. -/
inductive Event where
  | println (label : String) (err : Err)
  | barDefault (max : Int)
  | send (row : Row)
  | barAdd
  | close
  | barFinish
  | fileClose
  | wgDone
  | crash
  deriving DecidableEq, Repr

/-- The actions after the record loop, main.go lines 59-60, and the deferred
`file.Close()` and `wg.Done()`. -/
def epilogue : List Event := [.close, .barFinish, .fileClose, .wgDone]

/-- The record loop of `readAndParseCSV`, main.go lines 38-57, followed by everything the
goroutine does after it. An exhausted input makes `Read` return `io.EOF`. -/
def recordLoop (toLower : String → String) (headers : List String) :
    Int → List RawRead → List Event
  | _, [] => epilogue
  | fieldsPerRecord, raw :: rest =>
    match csvRead fieldsPerRecord raw with
    | (.error err, _) =>
      if err.isEOF then epilogue
      else .println "Error reading CSV record:" err :: epilogue
    | (.ok record, fieldsPerRecord') =>
      match buildRow toLower headers record with
      | none => [.fileClose, .wgDone, .crash]
      | some row =>
        .send row :: .barAdd :: recordLoop toLower headers fieldsPerRecord' rest

/-- The producer goroutine, main.go lines 16-61, as the sequence of actions it performs
when none of its sends blocks for ever. -/
def readAndParseCSV (toLower : String → String) (file : CsvFile)
    (estimatedTotalLines : Int) : List Event :=
  match file.openErr with
  | some err => [.println "Error opening file:" err, .close, .wgDone]
  | none =>
    match file.raws with
    | [] => [.println "Error reading CSV headers:" .eof, .close, .fileClose, .wgDone]
    | raw :: rest =>
      match csvRead 0 raw with
      | (.error err, _) =>
        [.println "Error reading CSV headers:" err, .close, .fileClose, .wgDone]
      | (.ok headers, fieldsPerRecord) =>
        .barDefault estimatedTotalLines :: recordLoop toLower headers fieldsPerRecord rest

/-- The rows sent on the channel in a sequence of producer actions. -/
def sentRows : List Event → List Row
  | [] => []
  | .send row :: rest => row :: sentRows rest
  | _ :: rest => sentRows rest

/-- The channel operations (sends and closes) in a sequence of producer actions. -/
def chanEvents (events : List Event) : List Event :=
  events.filter fun e =>
    match e with
    | .send _ => true
    | .close => true
    | _ => false

/-! ## JSON encoding of a row -/

/-- The table `hex` of `encoding/json`. -/
def hex : List Char :=
  ['0', '1', '2', '3', '4', '5', '6', '7', '8', '9', 'a', 'b', 'c', 'd', 'e', 'f']

/-- The digit `hex[n]`. -/
def hexDigit (n : Nat) : Char := hex.getD n '0'

/-- The double quote character. -/
def dquote : Char := Char.ofNat 34

/-- The backslash character. -/
def backslash : Char := Char.ofNat 92

/-- The bytes `appendString` of `encoding/json` writes for one character of a string,
with HTML escaping on (the default of `json.NewEncoder`): the quote and the backslash
are escaped by a backslash, the control characters below U+0020 by their short form
(`\b`, `\f`, `\n`, `\r`, `\t`, as Go 1.22 and later do) or by `\u00XX`, the characters `<`, `>` and `&` by `\u00XX`, and U+2028 and U+2029 by
`\u202X`; every other character is copied. -/
def escapeChar (c : Char) : List Char :=
  if c = dquote ∨ c = backslash then [backslash, c]
  else if c.toNat = 8 then [backslash, 'b']
  else if c.toNat = 12 then [backslash, 'f']
  else if c.toNat = 10 then [backslash, 'n']
  else if c.toNat = 13 then [backslash, 'r']
  else if c.toNat = 9 then [backslash, 't']
  else if c.toNat < 32 ∨ c = '<' ∨ c = '>' ∨ c = '&' then
    [backslash, 'u', '0', '0', hexDigit (c.toNat / 16), hexDigit (c.toNat % 16)]
  else if c.toNat = 8232 ∨ c.toNat = 8233 then
    [backslash, 'u', '2', '0', '2', hexDigit (c.toNat % 16)]
  else [c]

/-- A string as a JSON string literal (`appendString`). -/
def jsonString (s : String) : List Char :=
  dquote :: (s.data.map escapeChar).flatten ++ [dquote]

/-- Bytewise order of strings, by which `encoding/json` sorts the keys of a map
(`strings.Compare`): lexicographic order of the code points, which is the order of the
UTF-8 encodings. -/
def keyLe : List Char → List Char → Bool
  | [], _ => true
  | _ :: _, [] => false
  | a :: as, b :: bs => a.toNat < b.toNat || (a.toNat == b.toNat && keyLe as bs)

/-- Insertion of a map entry into a list of entries sorted by key. -/
def insertEntry (e : String × String) : List (String × String) → List (String × String)
  | [] => [e]
  | x :: rest => if keyLe e.1.data x.1.data then e :: x :: rest else x :: insertEntry e rest

/-- The entries of a map sorted by key, as `encoding/json` encodes a map. -/
def sortEntries : List (String × String) → List (String × String)
  | [] => []
  | e :: rest => insertEntry e (sortEntries rest)

/-- One member of an indented object: the key, a colon, a space and the value. -/
def jsonMember (e : String × String) : List Char :=
  jsonString e.1 ++ [':', ' '] ++ jsonString e.2

/-- The members of an indented object after the first: each follows a comma, a newline
and the two-space indent. -/
def jsonMoreMembers : List (String × String) → List Char
  | [] => []
  | e :: rest => [',', '\n', ' ', ' '] ++ jsonMember e ++ jsonMoreMembers rest

/-- The text `encoder.Encode(line)` writes for a row, with the encoder of main.go lines
73-74 (`json.NewEncoder` and `SetIndent("", "  ")`): the object with sorted keys, indented
by two spaces with one member per line, an empty object as `{}`, and the newline that
`Encode` adds after every value. -/
def encodeRow (row : Row) : String :=
  String.mk <|
    match sortEntries row with
    | [] => ['\x7b', '\x7d', '\n']
    | e :: rest =>
      ['\x7b', '\n', ' ', ' '] ++ jsonMember e ++ jsonMoreMembers rest ++ ['\n', '\x7d', '\n']

/-- The number of newline characters of a text. -/
def newlines (s : String) : Nat := s.data.count '\n'

/-! ## The line estimator `evaluateTotalLines` -/

/-- What `evaluateTotalLines` finds for a path: `os.Open` fails, or the scanner yields
`tokens` in successive calls of `Scan` and `scanner.Err()` then returns `scanErr`. -/
inductive ScanInput where
  | openFails (err : Err)
  | scanned (tokens : List String) (scanErr : Option Err)

/-- The loop `for scanner.Scan() { lineCount++ }`, main.go lines 150-152. -/
def countLoop : List String → Int → Int
  | [], lineCount => lineCount
  | _ :: rest, lineCount => countLoop rest (lineCount + 1)

/-- The function `evaluateTotalLines`, main.go lines 140-159: the returned value and
error. -/
def evaluateTotalLines : ScanInput → Int × Option Err
  | .openFails err => (0, some err)
  | .scanned tokens scanErr =>
    match scanErr with
    | some err => (0, some err)
    | none => (countLoop tokens 0 - 1, none)

/-- The function `dropCR` of `bufio`: drop one carriage return at the end of a line. -/
def dropCR (line : List Char) : List Char :=
  if line.getLast? = some '\r' then line.dropLast else line

/-- The constant `bufio.MaxScanTokenSize`: the size the buffer of a scanner can grow to. -/
def maxScanTokenSize : Nat := 65536

/-- The error `bufio.ErrTooLong`. -/
def errTooLong : Err := .other "bufio.Scanner: token too long"

/-- The number of bytes of the UTF-8 encoding of a text. -/
def utf8Bytes : List Char → Nat
  | [] => 0
  | c :: rest => c.utf8Size + utf8Bytes rest

/-- The run of a `bufio.Scanner` with the split function `bufio.ScanLines` on the data
left to scan: the tokens yielded by the successive calls of `Scan` and the value of
`scanner.Err()` after them. `cur` holds the characters of the current line read so
far, in reverse, and `n` is their number of bytes. A line ends at a newline, and a last
line without newline is a token when it is not empty. A line of `maxScanTokenSize` bytes
or more before its newline fills the buffer before its end is found: `Scan` then sets
`ErrTooLong` and returns false, so the scan stops there. -/
def scanFrom : List Char → List Char → Nat → List String × Option Err
  | [], cur, n =>
    if cur = [] then ([], none)
    else if maxScanTokenSize ≤ n then ([], some errTooLong)
    else ([String.mk (dropCR cur.reverse)], none)
  | c :: rest, cur, n =>
    if c = '\n' then
      if maxScanTokenSize ≤ n then ([], some errTooLong)
      else (String.mk (dropCR cur.reverse) :: (scanFrom rest [] 0).1, (scanFrom rest [] 0).2)
    else scanFrom rest (c :: cur) (n + c.utf8Size)

/-- The tokens a `bufio.Scanner` with the default split function yields on a text. -/
def scanLines (data : String) : List String := (scanFrom data.data [] 0).1

/-- The scan of a file that opens and is read without I/O error: the tokens of its
lines, and `ErrTooLong` when a line does not fit the buffer of the scanner. -/
def ScanInput.ofText (data : String) : ScanInput :=
  .scanned (scanFrom data.data [] 0).1 (scanFrom data.data [] 0).2

/-! ## The environment of a run -/

/-- The environment of a run: for every path what the estimator and the producer find
there, the error of `os.Create` on a non-empty path, and the error of the `n`-th write of
the encoder to the output file (counted from `0`). -/
structure World where
  scan : String → ScanInput
  csv : String → CsvFile
  create : String → Option Err
  write : Nat → Option Err

/-- The error of `os.Create(path)`: the empty path names no file, so the call fails
with `open : no such file or directory`. -/
def osCreate (w : World) (path : String) : Option Err :=
  if path = "" then some (.other "open : no such file or directory") else w.create path

/-! ## The writer `writeJSON` and the composition of the goroutines -/

/-- The control state of the writer goroutine: before `os.Create`; blocked in
`for line := range lines` after `n` rows were encoded; holding a received row before
`encoder.Encode`; returned. -/
inductive Writer where
  | start
  | ranging (n : Nat)
  | encoding (n : Nat) (line : Row)
  | done
  deriving DecidableEq, Repr

/-- The state of a run after `main` has started the two goroutines. -/
structure Sys where
  /-- The actions the producer has still to perform. -/
  producer : List Event
  /-- The control state of the writer. -/
  writer : Writer
  /-- Whether `close(lines)` was executed. -/
  closed : Bool
  /-- The counter of the `sync.WaitGroup`. -/
  wg : Int
  /-- The output file: `none` until `os.Create` succeeds, then the texts written. -/
  output : Option (List String)
  /-- The lines printed on standard output. -/
  stdout : List Out
  /-- Whether `main` is still in `wg.Wait()`. -/
  waiting : Bool
  /-- Whether the process was aborted by a runtime panic. -/
  crashed : Bool
  /-- The input path, printed by `main` at the end. -/
  filePath : String
  deriving DecidableEq, Repr

/-- One step of the producer goroutine: its next action. A send on the unbuffered
channel needs the writer blocked in `range lines` and hands the row over. -/
def readAndParseCSVStep (s : Sys) : Option Sys :=
  match s.producer with
  | [] => none
  | .send row :: rest =>
    match s.writer with
    | .ranging n => some { s with producer := rest, writer := .encoding n row }
    | _ => none
  | .println label err :: rest =>
    some { s with producer := rest, stdout := s.stdout ++ [.failure label err] }
  | .close :: rest => some { s with producer := rest, closed := true }
  | .wgDone :: rest => some { s with producer := rest, wg := s.wg - 1 }
  | .crash :: _ => some { s with producer := [], crashed := true }
  | .barDefault _ :: rest => some { s with producer := rest }
  | .barAdd :: rest => some { s with producer := rest }
  | .barFinish :: rest => some { s with producer := rest }
  | .fileClose :: rest => some { s with producer := rest }

/-- One step of the writer goroutine `writeJSON`, main.go lines 63-83. On every return
the deferred `wg.Done()` runs. A failed write is taken to leave the file unchanged. -/
def writeJSONStep (w : World) (outputPath : String) (s : Sys) : Option Sys :=
  match s.writer with
  | .start =>
    match osCreate w outputPath with
    | some err =>
      some { s with writer := .done, wg := s.wg - 1,
                    stdout := s.stdout ++ [.failure "Error creating JSON file:" err] }
    | none => some { s with writer := .ranging 0, output := some [] }
  | .ranging _ =>
    if s.closed then some { s with writer := .done, wg := s.wg - 1 } else none
  | .encoding n line =>
    match w.write n with
    | some err =>
      some { s with writer := .done, wg := s.wg - 1,
                    stdout := s.stdout ++ [.failure "Error writing JSON:" err] }
    | none =>
      some { s with writer := .ranging (n + 1),
                    output := s.output.map fun texts => texts ++ [encodeRow line] }
  | .done => none

/-- The step of `main` out of `wg.Wait()`, main.go lines 128-134: enabled when the
counter is zero. -/
def mainStep (s : Sys) : Option Sys :=
  if s.waiting ∧ s.wg = 0 then
    some { s with waiting := false,
                  stdout := s.stdout ++
                    [.text "Conversion complete!", .fileName s.filePath, .processingTime] }
  else none

/-- The successors of a state: a step of one of the three goroutines; none after a
crash. -/
def next (w : World) (outputPath : String) (s : Sys) : List Sys :=
  if s.crashed then []
  else (readAndParseCSVStep s).toList ++ (writeJSONStep w outputPath s).toList ++
    (mainStep s).toList

/-- The states a run can reach from a state. -/
def Reachable (w : World) (outputPath : String) : Sys → Sys → Prop :=
  Relation.ReflTransGen fun a b => b ∈ next w outputPath a

/-- A state in which no goroutine can take a step: the run is over, or stuck. -/
def Final (w : World) (outputPath : String) (s : Sys) : Prop := next w outputPath s = []

/-- Whether `main` has printed `Conversion complete!`. -/
def Completed (s : Sys) : Prop := Out.text "Conversion complete!" ∈ s.stdout

/-! ## The command line and `main` -/

/-- The loop over `os.Args`, main.go lines 90-96, from index `i` on; `n` is `len(args)`
and the pair is `(fileIndex, outputIndex)`. -/
def argLoop (n : Nat) : Nat → List String → Int × Int → Int × Int
  | _, [], found => found
  | i, arg :: rest, (fileIndex, outputIndex) =>
    if arg = "--file" ∧ i + 1 < n then argLoop n (i + 1) rest (((i + 1 : Nat) : Int), outputIndex)
    else if arg = "--output" ∧ i + 1 < n then
      argLoop n (i + 1) rest (fileIndex, ((i + 1 : Nat) : Int))
    else argLoop n (i + 1) rest (fileIndex, outputIndex)

/-- The pair `(fileIndex, outputIndex)` after the loop, both `-1` at the start
(main.go lines 87-96). -/
def parseArgs (args : List String) : Int × Int := argLoop args.length 0 args (-1, -1)

/-- The indexing `args[i]` for an index the program has stored. -/
def argAt (args : List String) (i : Int) : String := args.getD i.toNat ""

/-- What `main` does up to `wg.Wait()`: print the usage hint; or stop after a failed
estimate; or start the two goroutines, giving the initial state of the run. -/
inductive MainResult where
  | usage (stdout : List Out)
  | estimateFailed (filePath outputPath : String) (stdout : List Out)
  | started (filePath outputPath : String) (init : Sys)
  deriving DecidableEq

/-- The function `main`, main.go lines 85-138, up to the start of the goroutines. -/
def main (toLower : String → String) (w : World) (args : List String) : MainResult :=
  let fileIndex := (parseArgs args).1
  let outputIndex := (parseArgs args).2
  if fileIndex ≠ -1 then
    let filePath := argAt args fileIndex
    let outputPath := if outputIndex ≠ -1 then argAt args outputIndex else ""
    let banner : List Out := [.text "Reading file...", .text "================="]
    match evaluateTotalLines (w.scan filePath) with
    | (_, some err) =>
      .estimateFailed filePath outputPath (banner ++ [.failure "Error evaluating total lines:" err])
    | (estimatedTotalLines, none) =>
      .started filePath outputPath
        { producer := readAndParseCSV toLower (w.csv filePath) estimatedTotalLines
          writer := .start
          closed := false
          wg := 2
          output := none
          stdout := banner ++ [.estimated estimatedTotalLines]
          waiting := true
          crashed := false
          filePath := filePath }
  else .usage [.text "Please provide a file path using the --file argument."]

/-- The deterministic schedule that always takes the first enabled step, for at most
`fuel` steps. -/
def runFirst (w : World) (outputPath : String) : Nat → Sys → Sys
  | 0, s => s
  | fuel + 1, s =>
    match next w outputPath s with
    | [] => s
    | t :: _ => runFirst w outputPath fuel t

/-- The input and output paths `main` has chosen, when it goes beyond the usage hint. -/
def MainResult.paths? : MainResult → Option (String × String)
  | .usage _ => none
  | .estimateFailed filePath outputPath _ => some (filePath, outputPath)
  | .started filePath outputPath _ => some (filePath, outputPath)

/-! ## Specification-side definitions -/

/-- The positional zip of the specification: field `i` under the lower-cased header `i`,
up to the shorter of the two lists, later fields overwriting earlier ones with the
same key. -/
def zipRow (toLower : String → String) (headers record : List String) : Row :=
  (List.zip (headers.map toLower) record).foldl (fun row p => row.set p.1 p.2) []

/-- The actions of the record loop for a list of rows that are all sent. -/
def sendAll (rows : List Row) : List Event :=
  (rows.map fun row => [Event.send row, Event.barAdd]).flatten

/-- The records read successfully before the first failed read. -/
def okRecords : List (Except Err (List String)) → List (List String)
  | .ok record :: rest => record :: okRecords rest
  | _ => []

/-- The rows of the specification of the producer: none when the file does not open or
the header read fails, otherwise the rows built from the records read successfully
before the first failed read. -/
def expectedRows (toLower : String → String) (file : CsvFile) : List (Option Row) :=
  match file.openErr with
  | some _ => []
  | none =>
    match readOutcomes 0 file.raws with
    | .ok headers :: outcomes => (okRecords outcomes).map (buildRow toLower headers)
    | _ => []

/-- The tokenizer of `csv.Reader` never yields a record without fields. -/
def WellFormed (raws : List RawRead) : Prop := RawRead.record [] ∉ raws

/-- The flag `flag` stands at position `i` of the arguments and is not the last one. -/
def FlagAt (flag : String) (args : List String) (i : Nat) : Prop :=
  i + 1 < args.length ∧ args[i]? = some flag

/-- Position `i` is the last one where `flag` stands without being the last argument. -/
def LastFlagAt (flag : String) (args : List String) (i : Nat) : Prop :=
  FlagAt flag args i ∧ ∀ j, i < j → ¬ FlagAt flag args j

/-- The loop invariant of `argLoop` for one flag: after the arguments below `k`, the
index variable is `-1` when the flag did not occur among them in a non-final position,
and otherwise the position after its last such occurrence. -/
def FlagInv (flag : String) (args : List String) (k : Nat) (x : Int) : Prop :=
  (x = -1 ∧ ∀ i, i < k → ¬ FlagAt flag args i) ∨
    ∃ i, i < k ∧ FlagAt flag args i ∧ (∀ j, i < j → j < k → ¬ FlagAt flag args j) ∧
      x = ((i + 1 : Nat) : Int)

/-- An environment for concrete evaluations: every input path holds the three-line file
`name,age / Alice,30 / Bob,25`, and every output file can be created and written. -/
def exampleWorld : World where
  scan := fun _ => .ofText "name,age\nAlice,30\nBob,25\n"
  csv := fun _ =>
    ⟨none, [.record ["name", "age"], .record ["Alice", "30"], .record ["Bob", "25"]]⟩
  create := fun _ => none
  write := fun _ => none

/-- The order of two map entries in the encoding: by key. -/
def entryLe (a b : String × String) : Prop := keyLe a.1.data b.1.data = true

instance entryLe.decidable : DecidableRel entryLe := fun a b =>
  inferInstanceAs (Decidable (keyLe a.1.data b.1.data = true))

/-- The output file at the end of the run of `main` on the arguments, under the schedule
`runFirst` with the given fuel; `none` when no file was created. -/
def outputOfRun (toLower : String → String) (w : World) (args : List String)
    (fuel : Nat) : Option (List String) :=
  match main toLower w args with
  | .started _ outputPath init => (runFirst w outputPath fuel init).output
  | _ => none

/-- The texts the output file holds once every row in flight is written: the texts
written, the row the writer holds, and the rows the producer has still to send. -/
def pendingOutput (s : Sys) : List String :=
  match s.writer with
  | .start => (sentRows s.producer).map encodeRow
  | .ranging _ => s.output.getD [] ++ (sentRows s.producer).map encodeRow
  | .encoding _ line => s.output.getD [] ++ encodeRow line :: (sentRows s.producer).map encodeRow
  | .done => s.output.getD []

/-- No send follows the first close in a sequence of producer actions. -/
def closeLast : List Event → Prop
  | [] => True
  | .close :: rest => sentRows rest = []
  | _ :: rest => closeLast rest

/-- The invariant of a run in which the producer does not panic and the writer creates
its file and writes without error; `target` is the final content of the output file, and
`allowed` holds of the error lines of the run: only they are printed, and each of them
is printed or still to be printed by the producer. -/
structure Good (allowed : String → Err → Prop) (target : List String) (s : Sys) : Prop where
  notCrashed : s.crashed = false
  noCrash : Event.crash ∉ s.producer
  printlnOk : ∀ label err, Event.println label err ∈ s.producer → allowed label err
  pending : pendingOutput s = target
  created : s.output = none ↔ s.writer = .start
  afterClose : s.closed = true → sentRows s.producer = []
  beforeClose : s.closed = false → closeLast s.producer ∧ Event.close ∈ s.producer
  writerDone : s.writer = .done → s.closed = true
  counter : s.wg = (s.producer.count Event.wgDone : Int) + (if s.writer = .done then 0 else 1)
  completed : s.waiting = false → Completed s
  quiet : ∀ label err, Out.failure label err ∈ s.stdout → allowed label err
  reported : ∀ label err, allowed label err →
    Out.failure label err ∈ s.stdout ∨ Event.println label err ∈ s.producer

/-- The rank of the control state of the writer in the termination measure. -/
def Writer.rank : Writer → Nat
  | .start => 3
  | .encoding _ _ => 2
  | .ranging _ => 1
  | .done => 0

/-- A bound on the number of steps a run can still take. -/
def stepsLeft (s : Sys) : Nat :=
  2 * s.producer.length + s.writer.rank + (if s.waiting then 1 else 0)

/-- The invariant of a run without output file whose producer reaches a send: the
producer stands before the send of `row` (or before the creation of the progress bar
that precedes it), the writer has not started or has returned, and `main` waits. -/
structure Stuck (row : Row) (more : List Event) (s : Sys) : Prop where
  notCrashed : s.crashed = false
  waiting : s.waiting = true
  notCompleted : ¬ Completed s
  noOutput : s.output = none
  blocked : s.producer = .send row :: more ∨ ∃ m, s.producer = .barDefault m :: .send row :: more
  writer : (s.writer = .start ∧ s.wg = 2) ∨
    (s.writer = .done ∧ s.wg = 1 ∧
      Out.failure "Error creating JSON file:" (.other "open : no such file or directory") ∈
        s.stdout)

/-- The state in which `main` leaves the run of the example arguments
`gocsv --file in.csv --output out.json` in `exampleWorld`. -/
def exampleInit : Sys where
  producer := readAndParseCSV asciiToLower (exampleWorld.csv "in.csv") 2
  writer := .start
  closed := false
  wg := 2
  output := none
  stdout := [.text "Reading file...", .text "=================", .estimated 2]
  waiting := true
  crashed := false
  filePath := "in.csv"

/-- The value of a lower-case hexadecimal digit. -/
def hexValue (c : Char) : Nat := hex.indexOf c

/-- The text a JSON string body denotes, by the escapes of RFC 8259 (with lower-case
hexadecimal digits and without surrogate pairs): a backslash introduces `\uXXXX` or one
of the short escapes, and an unescaped quote or control character is not allowed;
`none` for a body that is not well formed. -/
def jsonUnescape : List Char → Option (List Char)
  | [] => some []
  | c :: rest =>
    if c = backslash then
      match rest with
      | [] => none
      | e :: rest₁ =>
        if e = 'u' then
          match rest₁ with
          | a :: b :: c₂ :: d :: rest₂ =>
            if a ∈ hex ∧ b ∈ hex ∧ c₂ ∈ hex ∧ d ∈ hex then
              (jsonUnescape rest₂).map fun s =>
                Char.ofNat (4096 * hexValue a + 256 * hexValue b + 16 * hexValue c₂ + hexValue d)
                  :: s
            else none
          | _ => none
        else if e = dquote ∨ e = backslash ∨ e = '/' then (jsonUnescape rest₁).map fun s => e :: s
        else if e = 'b' then (jsonUnescape rest₁).map fun s => Char.ofNat 8 :: s
        else if e = 'f' then (jsonUnescape rest₁).map fun s => Char.ofNat 12 :: s
        else if e = 'n' then (jsonUnescape rest₁).map fun s => Char.ofNat 10 :: s
        else if e = 'r' then (jsonUnescape rest₁).map fun s => Char.ofNat 13 :: s
        else if e = 't' then (jsonUnescape rest₁).map fun s => Char.ofNat 9 :: s
        else none
    else if c = dquote ∨ c.toNat < 32 then none
    else (jsonUnescape rest).map fun s => c :: s

/-- One member line of an indented object, as the specification of the output format
has it: the two-space indent, the key as a JSON string, a colon, a space, and the value
as a JSON string. -/
def memberText (e : String × String) : List Char :=
  [' ', ' '] ++ jsonString e.1 ++ [':', ' '] ++ jsonString e.2

/-- The text of an indented object with the given members in the given order, followed
by a newline: `{}` for no member, otherwise the opening brace, the member lines
separated by commas, and the closing brace on a line of its own. -/
def objectText (entries : List (String × String)) : List Char :=
  if entries = [] then ['\x7b', '\x7d', '\n']
  else ['\x7b', '\n'] ++ List.intercalate [',', '\n'] (entries.map memberText) ++
    ['\n', '\x7d', '\n']

/-- An environment with a ragged input: every input path holds the file
`A,B / 1,2 / 3 / 4,5`, whose third line has one field only, and every output file can be
created and written. -/
def raggedWorld : World where
  scan := fun _ => .ofText "A,B\n1,2\n3\n4,5\n"
  csv := fun _ => ⟨none, [.record ["A", "B"], .record ["1", "2"], .record ["3"],
    .record ["4", "5"]]⟩
  create := fun _ => none
  write := fun _ => none

/-- The state in which `main` leaves the run of the arguments
`gocsv --file in.csv --output out.json` in `raggedWorld`. -/
def raggedInit : Sys where
  producer := readAndParseCSV asciiToLower (raggedWorld.csv "in.csv") 3
  writer := .start
  closed := false
  wg := 2
  output := none
  stdout := [.text "Reading file...", .text "=================", .estimated 3]
  waiting := true
  crashed := false
  filePath := "in.csv"

/-! ## Rows -/

theorem Row.get?_set (row : Row) (k v k' : String) :
    (Row.set row k v).get? k' = if k' = k then some v else row.get? k' := by
  induction row with
  | nil =>
    by_cases h : k' = k
    · simp [Row.set, Row.get?, h]
    · have h' : ¬ k = k' := fun e => h e.symm
      simp [Row.set, Row.get?, h, h']
  | cons p rest ih =>
    obtain ⟨a, b⟩ := p
    by_cases hak : a = k
    · subst hak
      by_cases h : k' = a
      · simp [Row.set, Row.get?, h]
      · have h' : ¬ a = k' := fun e => h e.symm
        simp [Row.set, Row.get?, h, h']
    · by_cases hak' : a = k'
      · subst hak'
        have h' : ¬ a = k := hak
        simp [Row.set, Row.get?, hak]
      · simp [Row.set, Row.get?, hak, hak', ih]

theorem Row.mem_keys_set (row : Row) (k v x : String) :
    x ∈ (Row.set row k v).keys ↔ x = k ∨ x ∈ row.keys := by
  induction row with
  | nil => simp [Row.set, Row.keys]
  | cons p rest ih =>
    obtain ⟨a, b⟩ := p
    by_cases hak : a = k
    · subst hak
      simp [Row.set, Row.keys]
    · simp only [Row.keys] at ih
      simp [Row.set, Row.keys, hak, ih]
      tauto

theorem Row.length_set_le (row : Row) (k v : String) :
    (Row.set row k v).length ≤ row.length + 1 := by
  induction row with
  | nil => simp [Row.set]
  | cons p rest ih =>
    obtain ⟨a, b⟩ := p
    by_cases hak : a = k
    · simp [Row.set, hak]
    · simp [Row.set, hak]
      exact ih

/-- The fold of `Row.set` over keyed values, the common form of `zipRow` and of the
loop of `buildRowFrom`. -/
theorem foldSet_mem_keys (ps : List (String × String)) (row : Row) (x : String) :
    x ∈ Row.keys (ps.foldl (fun row p => Row.set row p.1 p.2) row) ↔
      x ∈ row.keys ∨ x ∈ ps.map Prod.fst := by
  induction ps generalizing row with
  | nil => simp
  | cons p rest ih =>
    simp only [List.foldl_cons, ih, Row.mem_keys_set, List.map_cons, List.mem_cons]
    tauto

theorem foldSet_length_le (ps : List (String × String)) (row : Row) :
    (ps.foldl (fun row p => Row.set row p.1 p.2) row).length ≤ row.length + ps.length := by
  induction ps generalizing row with
  | nil => simp
  | cons p rest ih =>
    simp only [List.foldl_cons, List.length_cons]
    have h1 := ih (Row.set row p.1 p.2)
    have h2 := Row.length_set_le row p.1 p.2
    omega

theorem foldSet_get?_of_not_mem (ps : List (String × String)) (row : Row) (k : String)
    (hk : k ∉ ps.map Prod.fst) :
    Row.get? (ps.foldl (fun row p => Row.set row p.1 p.2) row) k = row.get? k := by
  induction ps generalizing row with
  | nil => simp
  | cons p rest ih =>
    simp only [List.map_cons, List.mem_cons, not_or] at hk
    simp only [List.foldl_cons]
    rw [ih _ hk.2, Row.get?_set, if_neg hk.1]

theorem foldSet_get?_of_mem (ps : List (String × String)) (row : Row)
    (hnd : (ps.map Prod.fst).Nodup) (p : String × String) (hp : p ∈ ps) :
    Row.get? (ps.foldl (fun row p => Row.set row p.1 p.2) row) p.1 = some p.2 := by
  induction ps generalizing row with
  | nil => simp at hp
  | cons q rest ih =>
    simp only [List.map_cons, List.nodup_cons] at hnd
    simp only [List.foldl_cons]
    rcases List.mem_cons.1 hp with h | h
    · subst h
      rw [foldSet_get?_of_not_mem _ _ _ hnd.1, Row.get?_set, if_pos rfl]
    · exact ih _ hnd.2 h

/-! ## Building a row -/

theorem buildRowFrom_eq (toLower : String → String) (headers : List String) :
    ∀ (record : List String) (i : Nat) (row : Row), i + record.length ≤ headers.length →
      buildRowFrom toLower headers i record row =
        some ((List.zip ((headers.drop i).map toLower) record).foldl
          (fun row p => Row.set row p.1 p.2) row) := by
  intro record
  induction record with
  | nil => intro i row _; simp [buildRowFrom]
  | cons v rest ih =>
    intro i row h
    simp only [List.length_cons] at h
    have hi : i < headers.length := by omega
    have hd : headers.drop i = headers[i] :: headers.drop (i + 1) := List.drop_eq_getElem_cons hi
    simp only [buildRowFrom, List.getElem?_eq_getElem hi]
    rw [ih (i + 1) _ (by omega), hd]
    rfl

theorem buildRowFrom_none (toLower : String → String) (headers : List String) :
    ∀ (record : List String) (i : Nat) (row : Row), i ≤ headers.length →
      headers.length < i + record.length →
      buildRowFrom toLower headers i record row = none := by
  intro record
  induction record with
  | nil => intro i row hle h; simp only [List.length_nil] at h; omega
  | cons v rest ih =>
    intro i row hle h
    simp only [List.length_cons] at h
    by_cases hi : i < headers.length
    · simp only [buildRowFrom, List.getElem?_eq_getElem hi]
      exact ih (i + 1) _ (by omega) (by omega)
    · have : headers[i]? = none := List.getElem?_eq_none (by omega)
      simp [buildRowFrom, this]

theorem buildRow_eq_zipRow (toLower : String → String) (headers record : List String)
    (h : record.length ≤ headers.length) :
    buildRow toLower headers record = some (zipRow toLower headers record) := by
  unfold buildRow zipRow
  rw [buildRowFrom_eq toLower headers record 0 [] (by omega)]
  simp

theorem buildRow_eq_none (toLower : String → String) (headers record : List String)
    (h : headers.length < record.length) : buildRow toLower headers record = none :=
  buildRowFrom_none toLower headers record 0 [] (by omega) (by omega)

theorem map_fst_zip_take (l₁ l₂ : List String) :
    (List.zip l₁ l₂).map Prod.fst = l₁.take l₂.length := by
  induction l₁ generalizing l₂ with
  | nil => simp
  | cons a as ih =>
    cases l₂ with
    | nil => simp
    | cons b bs => simp [ih]

theorem zipRow_mem_keys (toLower : String → String) (headers record : List String)
    (k : String) :
    k ∈ (zipRow toLower headers record).keys ↔
      k ∈ (headers.take record.length).map toLower := by
  unfold zipRow
  rw [foldSet_mem_keys, map_fst_zip_take, List.map_take]
  simp [Row.keys]

theorem zipRow_length_le (toLower : String → String) (headers record : List String) :
    (zipRow toLower headers record).length ≤ record.length := by
  unfold zipRow
  have h := foldSet_length_le (List.zip (headers.map toLower) record) []
  have h2 : (List.zip (headers.map toLower) record).length ≤ record.length := by
    simp [List.length_zip]
  simp only [List.length_nil, Nat.zero_add] at h
  exact le_trans h h2

theorem zipRow_lookup (toLower : String → String) (headers record : List String)
    (hlen : record.length ≤ headers.length)
    (hnd : ((headers.take record.length).map toLower).Nodup) :
    (headers.take record.length).map (fun h => (zipRow toLower headers record).get? (toLower h)) =
      record.map some := by
  have hfst : (List.zip (headers.map toLower) record).map Prod.fst =
      (headers.take record.length).map toLower := by
    rw [map_fst_zip_take, List.map_take]
  have hsnd : (List.zip (headers.map toLower) record).map Prod.snd = record :=
    List.map_snd_zip _ _ (by simpa using hlen)
  have hall : ∀ p ∈ List.zip (headers.map toLower) record,
      (zipRow toLower headers record).get? p.1 = some p.2 := fun p hp =>
    foldSet_get?_of_mem _ [] (by rw [hfst]; exact hnd) p hp
  have hmap : (List.zip (headers.map toLower) record).map
        (fun p => (zipRow toLower headers record).get? p.1) =
      (List.zip (headers.map toLower) record).map (fun p => some p.2) :=
    List.map_congr_left hall
  have h1 : (List.zip (headers.map toLower) record).map
        (fun p => (zipRow toLower headers record).get? p.1) =
      ((List.zip (headers.map toLower) record).map Prod.fst).map
        (fun k => (zipRow toLower headers record).get? k) := by
    rw [List.map_map]; rfl
  have h2 : (List.zip (headers.map toLower) record).map (fun p => some p.2) =
      ((List.zip (headers.map toLower) record).map Prod.snd).map some := by
    rw [List.map_map]; rfl
  rw [h1, h2, hfst, hsnd, List.map_map] at hmap
  exact hmap

/-! ## The record loop -/

theorem csvRead_same (fieldsPerRecord : Int) (record : List String)
    (h : (record.length : Int) = fieldsPerRecord) :
    csvRead fieldsPerRecord (.record record) = (.ok record, fieldsPerRecord) := by
  unfold csvRead
  by_cases hpos : 0 < fieldsPerRecord
  · simp [hpos, h]
  · have h0 : fieldsPerRecord = 0 := by have := Int.ofNat_nonneg record.length; omega
    subst h0
    simp [h]

theorem csvRead_mismatch (fieldsPerRecord : Int) (record : List String)
    (hpos : 0 < fieldsPerRecord) (h : (record.length : Int) ≠ fieldsPerRecord) :
    csvRead fieldsPerRecord (.record record) = (.error .fieldCount, fieldsPerRecord) := by
  simp [csvRead, hpos, h]

theorem recordLoop_good (toLower : String → String) (headers : List String)
    (good : List (List String)) (tail : List RawRead)
    (hgood : ∀ r ∈ good, r.length = headers.length) :
    recordLoop toLower headers headers.length (good.map .record ++ tail) =
      sendAll (good.map (zipRow toLower headers)) ++
        recordLoop toLower headers headers.length tail := by
  induction good with
  | nil => simp [sendAll]
  | cons r rest ih =>
    have hr : r.length = headers.length := hgood r (List.mem_cons_self _ _)
    have hrest : ∀ r ∈ rest, r.length = headers.length := fun x hx =>
      hgood x (List.mem_cons_of_mem _ hx)
    simp only [List.map_cons, List.cons_append, recordLoop]
    rw [csvRead_same _ _ (by rw [hr])]
    dsimp only
    rw [buildRow_eq_zipRow _ _ _ (le_of_eq hr)]
    dsimp only
    have ih' := ih hrest
    simp only [List.append_eq] at ih' ⊢
    rw [ih']
    simp [sendAll]

theorem recordLoop_bad (toLower : String → String) (headers bad : List String)
    (rest : List RawRead) (hne : headers ≠ []) (hbad : bad.length ≠ headers.length) :
    recordLoop toLower headers headers.length (.record bad :: rest) =
      .println "Error reading CSV record:" .fieldCount :: epilogue := by
  have hpos : (0 : Int) < headers.length := by
    have : 0 < headers.length := List.length_pos.2 hne
    exact_mod_cast this
  simp only [recordLoop]
  rw [csvRead_mismatch _ _ hpos (by exact_mod_cast hbad)]
  simp [Err.isEOF]

theorem readAndParseCSV_mismatch (toLower : String → String) (headers : List String)
    (good : List (List String)) (bad : List String) (rest : List RawRead) (est : Int)
    (hne : headers ≠ []) (hgood : ∀ r ∈ good, r.length = headers.length)
    (hbad : bad.length ≠ headers.length) :
    readAndParseCSV toLower ⟨none, .record headers :: (good.map .record ++ .record bad :: rest)⟩
        est =
      .barDefault est :: (sendAll (good.map (zipRow toLower headers)) ++
        .println "Error reading CSV record:" .fieldCount :: epilogue) := by
  have h0 : csvRead 0 (.record headers) = (.ok headers, (headers.length : Int)) := by
    simp [csvRead]
  simp only [readAndParseCSV, h0, recordLoop_good toLower headers good _ hgood,
    recordLoop_bad toLower headers bad rest hne hbad]

theorem sentRows_sendAll (rows : List Row) (tail : List Event) :
    sentRows (sendAll rows ++ tail) = rows ++ sentRows tail := by
  induction rows with
  | nil => simp [sendAll]
  | cons r rest ih =>
    simp only [sendAll, List.map_cons, List.flatten_cons, List.cons_append, List.nil_append,
      sentRows] at ih ⊢
    simp [ih]

theorem chanEvents_sendAll (rows : List Row) (tail : List Event) :
    chanEvents (sendAll rows ++ tail) = rows.map Event.send ++ chanEvents tail := by
  induction rows with
  | nil => simp [sendAll]
  | cons r rest ih =>
    simp only [sendAll, List.map_cons, List.flatten_cons, List.cons_append, List.nil_append,
      chanEvents] at ih ⊢
    simp [List.filter_cons, ih]

theorem sentRows_epilogue : sentRows epilogue = [] := rfl

theorem chanEvents_epilogue : chanEvents epilogue = [.close] := rfl

/-- The shape of the record loop after a header with at least one field: the rows of
the records read successfully before the first failed read are sent, an error line is
printed unless the loop ended at the end of the input, and the epilogue follows. -/
theorem recordLoop_shape (toLower : String → String) (headers : List String)
    (hne : headers ≠ []) (raws : List RawRead) :
    ∃ rows tl, recordLoop toLower headers headers.length raws = sendAll rows ++ (tl ++ epilogue) ∧
      (tl = [] ∨ ∃ e, tl = [.println "Error reading CSV record:" e]) ∧
      rows.map some =
        (okRecords (readOutcomes headers.length raws)).map (buildRow toLower headers) := by
  have hpos : (0 : Int) < headers.length := by
    have : 0 < headers.length := List.length_pos.2 hne
    exact_mod_cast this
  induction raws with
  | nil => exact ⟨[], [], by simp [recordLoop, sendAll], Or.inl rfl, by simp [readOutcomes, okRecords]⟩
  | cons raw rest ih =>
    cases raw with
    | failure e =>
      have hc : csvRead headers.length (.failure e) = (.error e, (headers.length : Int)) := rfl
      by_cases he : e.isEOF = true
      · exact ⟨[], [], by simp [recordLoop, hc, he, sendAll], Or.inl rfl,
          by simp [readOutcomes, hc, okRecords]⟩
      · exact ⟨[], [.println "Error reading CSV record:" e],
          by simp [recordLoop, hc, he, sendAll], Or.inr ⟨e, rfl⟩,
          by simp [readOutcomes, hc, okRecords]⟩
    | record r =>
      by_cases hr : r.length = headers.length
      · obtain ⟨rows, tl, h1, h2, h3⟩ := ih
        have hc := csvRead_same (headers.length : Int) r (by rw [hr])
        refine ⟨zipRow toLower headers r :: rows, tl, ?_, h2, ?_⟩
        · simp only [recordLoop]
          rw [hc]
          dsimp only
          rw [buildRow_eq_zipRow _ _ _ (le_of_eq hr)]
          dsimp only
          rw [h1]
          simp [sendAll]
        · simp only [readOutcomes, hc, okRecords, List.map_cons, h3,
            buildRow_eq_zipRow _ _ _ (le_of_eq hr)]
      · have hc := csvRead_mismatch (headers.length : Int) r hpos (by exact_mod_cast hr)
        exact ⟨[], [.println "Error reading CSV record:" .fieldCount],
          by simp [recordLoop, hc, Err.isEOF, sendAll], Or.inr ⟨_, rfl⟩,
          by simp [readOutcomes, hc, okRecords]⟩

theorem sentRows_tail (tl : List Event)
    (h : tl = [] ∨ ∃ e, tl = [.println "Error reading CSV record:" e]) :
    sentRows (tl ++ epilogue) = [] := by
  rcases h with rfl | ⟨e, rfl⟩ <;> rfl

theorem chanEvents_tail (tl : List Event)
    (h : tl = [] ∨ ∃ e, tl = [.println "Error reading CSV record:" e]) :
    chanEvents (tl ++ epilogue) = [.close] := by
  rcases h with rfl | ⟨e, rfl⟩ <;> rfl

theorem crash_not_mem_sendAll (rows : List Row) : Event.crash ∉ sendAll rows := by
  induction rows with
  | nil => simp [sendAll]
  | cons r rest ih =>
    simp only [sendAll, List.map_cons, List.flatten_cons, List.cons_append, List.nil_append,
      List.mem_cons, not_or] at ih ⊢
    exact ⟨by simp, by simp, ih⟩

theorem crash_not_mem_tail (tl : List Event)
    (h : tl = [] ∨ ∃ e, tl = [.println "Error reading CSV record:" e]) :
    Event.crash ∉ tl ++ epilogue := by
  rcases h with rfl | ⟨e, rfl⟩ <;> simp [epilogue]

/-! ## Claims on the producer -/

/-- C2, as stated, fails: with the headers `A` and `a` and the row `1,2` the row object
holds the single key `a` with the value `2`, and the lookups by header give `2,2`. -/
theorem roundtrip_fails_on_duplicate_headers :
    ∃ row, buildRow asciiToLower ["A", "a"] ["1", "2"] = some row ∧
      ["A", "a"].map (fun h => Row.get? row (asciiToLower h)) ≠ ["1", "2"].map some :=
  ⟨[("a", "2")], by decide, by decide⟩

/-- C2, amended: for every header list whose lower-cased names are pairwise distinct and
every data row with as many fields as the header list, the row object is built and the
lookups of the lower-cased headers, in header order, return the cells of the row. -/
theorem roundtrip_of_distinct_headers (toLower : String → String)
    (headers record : List String) (hlen : record.length = headers.length)
    (hnd : (headers.map toLower).Nodup) :
    ∃ row, buildRow toLower headers record = some row ∧
      headers.map (fun h => Row.get? row (toLower h)) = record.map some := by
  refine ⟨zipRow toLower headers record, buildRow_eq_zipRow _ _ _ (le_of_eq hlen), ?_⟩
  have h := zipRow_lookup toLower headers record (le_of_eq hlen)
  rw [hlen, List.take_length] at h
  exact h hnd

/-- The amended round trip at the header `Name,Age` and the row `Alice,30`. -/
theorem roundtrip_of_distinct_headers_witness :
    ∃ row, buildRow asciiToLower ["Name", "Age"] ["Alice", "30"] = some row ∧
      ["Name", "Age"].map (fun h => Row.get? row (asciiToLower h)) =
        ["Alice", "30"].map some :=
  roundtrip_of_distinct_headers asciiToLower ["Name", "Age"] ["Alice", "30"] (by decide)
    (by decide)

/-- C3: when the reader yields no record without fields, the rows `readAndParseCSV`
sends are the rows built from the records read successfully before the first failed
read, in order, and there are none when the file does not open or the header read
fails; records after a failed read are never sent. -/
theorem sent_rows_stop_at_first_failure (toLower : String → String) (file : CsvFile)
    (est : Int) (hwf : WellFormed file.raws) :
    (sentRows (readAndParseCSV toLower file est)).map some = expectedRows toLower file := by
  obtain ⟨openErr, raws⟩ := file
  cases openErr with
  | some err => simp [readAndParseCSV, expectedRows, sentRows]
  | none =>
    cases raws with
    | nil => simp [readAndParseCSV, expectedRows, sentRows, readOutcomes]
    | cons raw rest =>
      cases raw with
      | failure e =>
        have hc : csvRead 0 (.failure e) = (.error e, 0) := rfl
        simp [readAndParseCSV, expectedRows, sentRows, readOutcomes, hc]
      | record headers =>
        have hne : headers ≠ [] := by
          intro h
          subst h
          exact hwf (List.mem_cons_self _ _)
        have h0 : csvRead 0 (.record headers) = (.ok headers, (headers.length : Int)) := by
          simp [csvRead]
        obtain ⟨rows, tl, h1, h2, h3⟩ := recordLoop_shape toLower headers hne rest
        simp only [readAndParseCSV, expectedRows, readOutcomes, h0, h1, sentRows,
          sentRows_sendAll, sentRows_tail tl h2, List.append_nil, h3]

/-- The rows sent for a header, one good record, a syntax error and a further record: only the row of the good record. -/
theorem sent_rows_stop_at_first_failure_witness :
    WellFormed [.record ["a", "b"], .record ["1", "2"], .failure (.other "bare quote"),
        .record ["3", "4"]] ∧
      (sentRows (readAndParseCSV asciiToLower
        ⟨none, [.record ["a", "b"], .record ["1", "2"], .failure (.other "bare quote"),
          .record ["3", "4"]]⟩ 3)).map some =
        [some [("a", "1"), ("b", "2")]] :=
  ⟨by unfold WellFormed; decide,
    (sent_rows_stop_at_first_failure asciiToLower
      ⟨none, [.record ["a", "b"], .record ["1", "2"], .failure (.other "bare quote"),
        .record ["3", "4"]]⟩ 3 (by unfold WellFormed; decide)).trans (by decide)⟩

/-- C9: when the reader yields no record without fields, on every path through
`readAndParseCSV` the channel operations of the producer are the sends followed by one
close, which is the last of them, and the goroutine does not panic. -/
theorem close_once_and_last (toLower : String → String) (file : CsvFile) (est : Int)
    (hwf : WellFormed file.raws) :
    chanEvents (readAndParseCSV toLower file est) =
        (sentRows (readAndParseCSV toLower file est)).map Event.send ++ [Event.close] ∧
      Event.crash ∉ readAndParseCSV toLower file est := by
  obtain ⟨openErr, raws⟩ := file
  cases openErr with
  | some err => simp [readAndParseCSV, sentRows, chanEvents]
  | none =>
    cases raws with
    | nil => simp [readAndParseCSV, sentRows, chanEvents]
    | cons raw rest =>
      cases raw with
      | failure e =>
        have hc : csvRead 0 (.failure e) = (.error e, 0) := rfl
        simp [readAndParseCSV, sentRows, chanEvents, hc]
      | record headers =>
        have hne : headers ≠ [] := by
          intro h
          subst h
          exact hwf (List.mem_cons_self _ _)
        have h0 : csvRead 0 (.record headers) = (.ok headers, (headers.length : Int)) := by
          simp [csvRead]
        obtain ⟨rows, tl, h1, h2, _⟩ := recordLoop_shape toLower headers hne rest
        have hb : ∀ l, chanEvents (Event.barDefault est :: l) = chanEvents l := fun _ => rfl
        refine ⟨?_, ?_⟩
        · simp only [readAndParseCSV, h0, h1, sentRows, hb, chanEvents_sendAll,
            sentRows_sendAll, chanEvents_tail tl h2, sentRows_tail tl h2, List.append_nil]
        · have hrw : readAndParseCSV toLower ⟨none, .record headers :: rest⟩ est =
              .barDefault est :: (sendAll rows ++ (tl ++ epilogue)) := by
            simp only [readAndParseCSV, h0, h1]
          rw [hrw]
          intro hmem
          rcases List.mem_cons.1 hmem with h | h
          · cases h
          · rcases List.mem_append.1 h with h | h
            · exact crash_not_mem_sendAll rows h
            · exact crash_not_mem_tail tl h2 h

/-- The channel operations for a header, one good record, a record with two fields and a further record: one send and the close. -/
theorem close_once_and_last_witness :
    WellFormed [.record ["a"], .record ["1"], .record ["2", "3"], .record ["4"]] ∧
      chanEvents (readAndParseCSV asciiToLower
        ⟨none, [.record ["a"], .record ["1"], .record ["2", "3"], .record ["4"]]⟩ 3) =
        [.send [("a", "1")], .close] :=
  ⟨by unfold WellFormed; decide,
    (close_once_and_last asciiToLower
      ⟨none, [.record ["a"], .record ["1"], .record ["2", "3"], .record ["4"]]⟩ 3
      (by unfold WellFormed; decide)).1.trans (by decide)⟩

/-- C6, as stated, fails: for the header `a` and the record `1,2` the row-building loop
indexes `headers[1]` out of range, and in the conversion the reader rejects the record,
so no row with the first field is built or sent. -/
theorem long_record_emits_nothing :
    buildRow asciiToLower ["a"] ["1", "2"] = none ∧
      readAndParseCSV asciiToLower ⟨none, [.record ["a"], .record ["1", "2"]]⟩ 1 =
        [.barDefault 1, .println "Error reading CSV record:" .fieldCount, .close, .barFinish,
          .fileClose, .wgDone] ∧
      sentRows (readAndParseCSV asciiToLower ⟨none, [.record ["a"], .record ["1", "2"]]⟩ 1) =
        [] := by
  decide

/-- C6, amended: after a header with at least one field, a data record with more fields
than the header list is rejected by the CSV reader with the field-count error; the
producer sends the rows of the records before it, prints the record read error and
leaves the loop without building a row, so `headers[i]` is not evaluated out of range
in the conversion. The row-building loop alone has no bound check: applied to such a
record it runs out of range. -/
theorem long_record_is_rejected (toLower : String → String) (headers : List String)
    (good : List (List String)) (bad : List String) (rest : List RawRead) (est : Int)
    (hne : headers ≠ []) (hgood : ∀ r ∈ good, r.length = headers.length)
    (hbad : headers.length < bad.length) :
    readAndParseCSV toLower
        ⟨none, .record headers :: (good.map .record ++ .record bad :: rest)⟩ est =
      .barDefault est :: (sendAll (good.map (zipRow toLower headers)) ++
        .println "Error reading CSV record:" .fieldCount :: epilogue) ∧
    buildRow toLower headers bad = none :=
  ⟨readAndParseCSV_mismatch toLower headers good bad rest est hne hgood (by omega),
    buildRow_eq_none _ _ _ hbad⟩

/-- A record with three fields under a header of two: the row before it is sent, nothing after, and the loop alone runs out of range. -/
theorem long_record_is_rejected_witness :
    sentRows (readAndParseCSV asciiToLower
        ⟨none, .record ["A", "B"] :: ([["1", "2"]].map .record ++
          .record ["3", "4", "5"] :: [.record ["6", "7"]])⟩ 3) = [[("a", "1"), ("b", "2")]] ∧
      buildRow asciiToLower ["A", "B"] ["3", "4", "5"] = none :=
  ⟨(congrArg sentRows (long_record_is_rejected asciiToLower ["A", "B"] [["1", "2"]]
      ["3", "4", "5"] [.record ["6", "7"]] 3 (by decide) (by decide) (by decide)).1).trans
      (by decide),
    (long_record_is_rejected asciiToLower ["A", "B"] [["1", "2"]] ["3", "4", "5"]
      [.record ["6", "7"]] 3 (by decide) (by decide) (by decide)).2⟩

/-! ## The line estimator -/

theorem countLoop_eq (tokens : List String) (n : Int) :
    countLoop tokens n = n + (tokens.length : Int) := by
  induction tokens generalizing n with
  | nil => simp [countLoop]
  | cons t rest ih =>
    simp only [countLoop, ih, List.length_cons]
    push_cast
    ring

theorem scanFrom_no_newline (data cur : List Char) (n : Nat) (h : '\n' ∉ data) :
    scanFrom data cur n =
      if cur.reverse ++ data = [] then ([], none)
      else if maxScanTokenSize ≤ n + utf8Bytes data then ([], some errTooLong)
      else ([String.mk (dropCR (cur.reverse ++ data))], none) := by
  induction data generalizing cur n with
  | nil => simp [scanFrom, utf8Bytes]
  | cons c rest ih =>
    simp only [List.mem_cons, not_or] at h
    have hc : ¬ c = '\n' := fun e => h.1 e.symm
    simp only [scanFrom, if_neg hc]
    rw [ih (c :: cur) _ h.2]
    simp [utf8Bytes, Nat.add_assoc]

theorem scanFrom_line (data cur more : List Char) (n : Nat) (h : '\n' ∉ data) :
    scanFrom (data ++ '\n' :: more) cur n =
      if maxScanTokenSize ≤ n + utf8Bytes data then ([], some errTooLong)
      else (String.mk (dropCR (cur.reverse ++ data)) :: (scanFrom more [] 0).1,
        (scanFrom more [] 0).2) := by
  induction data generalizing cur n with
  | nil => simp [scanFrom, utf8Bytes]
  | cons c rest ih =>
    simp only [List.mem_cons, not_or] at h
    have hc : ¬ c = '\n' := fun e => h.1 e.symm
    simp only [List.cons_append, scanFrom, if_neg hc, List.append_eq]
    rw [ih (c :: cur) _ h.2]
    simp [utf8Bytes, Nat.add_assoc]

theorem ofText_line (header : String) (h : '\n' ∉ header.data) :
    ScanInput.ofText (header ++ "\n") =
      if maxScanTokenSize ≤ utf8Bytes header.data then .scanned [] (some errTooLong)
      else .scanned [String.mk (dropCR header.data)] none := by
  have hd : (header ++ "\n").data = header.data ++ '\n' :: [] := by
    rw [String.data_append]
  unfold ScanInput.ofText
  rw [hd, scanFrom_line header.data [] [] 0 h]
  by_cases hb : maxScanTokenSize ≤ utf8Bytes header.data
  · simp [hb]
  · simp [hb, scanFrom]

theorem ofText_last_line (header : String) (h : '\n' ∉ header.data) (hne : header.data ≠ []) :
    ScanInput.ofText header =
      if maxScanTokenSize ≤ utf8Bytes header.data then .scanned [] (some errTooLong)
      else .scanned [String.mk (dropCR header.data)] none := by
  unfold ScanInput.ofText
  rw [scanFrom_no_newline header.data [] 0 h]
  by_cases hb : maxScanTokenSize ≤ utf8Bytes header.data
  · simp [hb, hne]
  · simp [hb, hne]

/-- C7: when the file opens and the scan ends without error, `evaluateTotalLines` returns
the number of tokens the scanner yielded minus one, and no error; when opening or
scanning fails, the error is returned with the value `0`. On files as texts: an empty
file gives `-1` without error; a file holding one line (the header), with or without its
line terminator, gives `0` without error when the line fits the buffer of the scanner
(fewer than 65536 bytes), and otherwise the scan fails and the value `0` is returned
with the error `token too long`. The function is total: it returns on every input. -/
theorem evaluateTotalLines_counts_lines_minus_one :
    (∀ tokens, evaluateTotalLines (.scanned tokens none) = ((tokens.length : Int) - 1, none)) ∧
    (∀ err, evaluateTotalLines (.openFails err) = (0, some err)) ∧
    (∀ tokens err, evaluateTotalLines (.scanned tokens (some err)) = (0, some err)) ∧
    evaluateTotalLines (.ofText "") = (-1, none) ∧
    (∀ header : String, '\n' ∉ header.data → utf8Bytes header.data < maxScanTokenSize →
      evaluateTotalLines (.ofText (header ++ "\n")) = (0, none) ∧
      (header ≠ "" → evaluateTotalLines (.ofText header) = (0, none))) ∧
    (∀ header : String, '\n' ∉ header.data → maxScanTokenSize ≤ utf8Bytes header.data →
      evaluateTotalLines (.ofText (header ++ "\n")) = (0, some errTooLong) ∧
      evaluateTotalLines (.ofText header) = (0, some errTooLong)) := by
  refine ⟨?_, fun _ => rfl, fun _ _ => rfl, by decide, ?_, ?_⟩
  · intro tokens
    simp [evaluateTotalLines, countLoop_eq]
  · intro header h hb
    have hb' : ¬ maxScanTokenSize ≤ utf8Bytes header.data := by omega
    constructor
    · rw [ofText_line header h, if_neg hb']
      simp [evaluateTotalLines, countLoop]
    · intro hne
      have hd : header.data ≠ [] := by
        intro e
        apply hne
        cases header
        simp_all
      rw [ofText_last_line header h hd, if_neg hb']
      simp [evaluateTotalLines, countLoop]
  · intro header h hb
    have hd : header.data ≠ [] := by
      intro e
      rw [e] at hb
      simp [utf8Bytes, maxScanTokenSize] at hb
    constructor
    · rw [ofText_line header h, if_pos hb]
      rfl
    · rw [ofText_last_line header h hd, if_pos hb]
      rfl

theorem utf8Bytes_replicate (n : Nat) : utf8Bytes (List.replicate n 'a') = n := by
  induction n with
  | zero => rfl
  | succ k ih =>
    have h1 : Char.utf8Size 'a' = 1 := by decide
    simp only [List.replicate_succ, utf8Bytes, ih, h1]
    omega

/-- The estimate for the one-line file `name,age`, with and without its newline, and for
a file holding one line of 65536 letters, on which the scan fails. -/
theorem evaluateTotalLines_counts_lines_minus_one_witness :
    '\n' ∉ "name,age".data ∧ utf8Bytes "name,age".data < maxScanTokenSize ∧ "name,age" ≠ "" ∧
      evaluateTotalLines (.ofText ("name,age" ++ "\n")) = (0, none) ∧
      evaluateTotalLines (.ofText "name,age") = (0, none) ∧
      evaluateTotalLines (.ofText (String.mk (List.replicate 65536 'a'))) =
        (0, some errTooLong) :=
  ⟨by decide, by decide, by decide,
    (evaluateTotalLines_counts_lines_minus_one.2.2.2.2.1 "name,age" (by decide)
      (by decide)).1,
    (evaluateTotalLines_counts_lines_minus_one.2.2.2.2.1 "name,age" (by decide)
      (by decide)).2 (by decide),
    (evaluateTotalLines_counts_lines_minus_one.2.2.2.2.2 (String.mk (List.replicate 65536 'a'))
      (fun h => absurd (List.eq_of_mem_replicate h) (by decide))
      (by
        show maxScanTokenSize ≤ utf8Bytes (List.replicate 65536 'a')
        rw [utf8Bytes_replicate]
        exact Nat.le_refl _)).2⟩

/-! ## The command line -/

theorem FlagInv_step_yes (flag : String) (args : List String) (i : Nat)
    (h : FlagAt flag args i) : FlagInv flag args (i + 1) ((i + 1 : Nat) : Int) :=
  Or.inr ⟨i, Nat.lt_succ_self i, h, fun j h1 h2 => by omega, rfl⟩

theorem FlagInv_step_no (flag : String) (args : List String) (i : Nat) (x : Int)
    (hinv : FlagInv flag args i x) (h : ¬ FlagAt flag args i) : FlagInv flag args (i + 1) x := by
  rcases hinv with ⟨hx, hno⟩ | ⟨k, hk, hat, hlast, hx⟩
  · refine Or.inl ⟨hx, fun j hj => ?_⟩
    rcases Nat.lt_succ_iff_lt_or_eq.1 hj with h1 | h1
    · exact hno j h1
    · rw [h1]; exact h
  · refine Or.inr ⟨k, by omega, hat, fun j h1 h2 => ?_, hx⟩
    rcases Nat.lt_succ_iff_lt_or_eq.1 h2 with h3 | h3
    · exact hlast j h1 h3
    · rw [h3]; exact h

theorem argLoop_inv (args : List String) :
    ∀ (rest : List String) (i : Nat) (f o : Int), args.drop i = rest →
      FlagInv "--file" args i f → FlagInv "--output" args i o →
      FlagInv "--file" args args.length (argLoop args.length i rest (f, o)).1 ∧
        FlagInv "--output" args args.length (argLoop args.length i rest (f, o)).2 := by
  intro rest
  induction rest with
  | nil =>
    intro i f o hdrop hf ho
    have hi : args.length ≤ i := List.drop_eq_nil_iff.1 hdrop
    have mono : ∀ flag x, FlagInv flag args i x → FlagInv flag args args.length x := by
      intro flag x hinv
      rcases hinv with ⟨hx, hno⟩ | ⟨k, hk, hat, hlast, hx⟩
      · exact Or.inl ⟨hx, fun j hj => hno j (by omega)⟩
      · exact Or.inr ⟨k, by have := hat.1; omega, hat, fun j h1 h2 => hlast j h1 (by omega), hx⟩
    exact ⟨mono _ _ hf, mono _ _ ho⟩
  | cons arg rest ih =>
    intro i f o hdrop hf ho
    have hi : i < args.length := by
      by_contra hge
      rw [List.drop_eq_nil_iff.2 (by omega)] at hdrop
      cases hdrop
    have hget : args[i]? = some arg := by
      have h := List.drop_eq_getElem_cons hi
      rw [hdrop] at h
      rw [List.getElem?_eq_getElem hi]
      exact congrArg some (List.cons.inj h).1.symm
    have hdrop' : args.drop (i + 1) = rest := by
      have h := List.drop_eq_getElem_cons hi
      rw [hdrop] at h
      exact (List.cons.inj h).2.symm
    have hfo : ("--file" : String) ≠ "--output" := by decide
    simp only [argLoop]
    by_cases h1 : arg = "--file" ∧ i + 1 < args.length
    · rw [if_pos h1]
      refine ih (i + 1) _ _ hdrop' (FlagInv_step_yes _ _ _ ⟨h1.2, by rw [hget, h1.1]⟩)
        (FlagInv_step_no _ _ _ _ ho ?_)
      rintro ⟨_, h⟩
      rw [hget, h1.1] at h
      exact hfo (Option.some.inj h)
    · rw [if_neg h1]
      have hnf : ¬ FlagAt "--file" args i := by
        rintro ⟨h2, h3⟩
        rw [hget] at h3
        exact h1 ⟨Option.some.inj h3, h2⟩
      by_cases h2 : arg = "--output" ∧ i + 1 < args.length
      · rw [if_pos h2]
        exact ih (i + 1) _ _ hdrop' (FlagInv_step_no _ _ _ _ hf hnf)
          (FlagInv_step_yes _ _ _ ⟨h2.2, by rw [hget, h2.1]⟩)
      · rw [if_neg h2]
        refine ih (i + 1) _ _ hdrop' (FlagInv_step_no _ _ _ _ hf hnf)
          (FlagInv_step_no _ _ _ _ ho ?_)
        rintro ⟨h3, h4⟩
        rw [hget] at h4
        exact h2 ⟨Option.some.inj h4, h3⟩

/-- What the loop over the arguments leaves in an index variable: `-1` when the flag
occurs in no non-final position, otherwise the position after the last such occurrence. -/
theorem FlagInv_final (flag : String) (args : List String) (x : Int)
    (h : FlagInv flag args args.length x) :
    (x = -1 ∧ ∀ i, ¬ FlagAt flag args i) ∨
      ∃ i, LastFlagAt flag args i ∧ x = ((i + 1 : Nat) : Int) := by
  rcases h with ⟨hx, hno⟩ | ⟨k, _, hat, hlast, hx⟩
  · exact Or.inl ⟨hx, fun i hi => hno i (by have := hi.1; omega) hi⟩
  · exact Or.inr ⟨k, ⟨hat, fun j h1 h2 => hlast j h1 (by have := h2.1; omega) h2⟩, hx⟩

theorem parseArgs_spec (args : List String) :
    (((parseArgs args).1 = -1 ∧ ∀ i, ¬ FlagAt "--file" args i) ∨
        ∃ i, LastFlagAt "--file" args i ∧ (parseArgs args).1 = ((i + 1 : Nat) : Int)) ∧
      (((parseArgs args).2 = -1 ∧ ∀ i, ¬ FlagAt "--output" args i) ∨
        ∃ i, LastFlagAt "--output" args i ∧ (parseArgs args).2 = ((i + 1 : Nat) : Int)) := by
  have h := argLoop_inv args args 0 (-1) (-1) rfl
    (Or.inl ⟨rfl, fun i hi => absurd hi (Nat.not_lt_zero i)⟩)
    (Or.inl ⟨rfl, fun i hi => absurd hi (Nat.not_lt_zero i)⟩)
  exact ⟨FlagInv_final _ _ _ h.1, FlagInv_final _ _ _ h.2⟩

theorem argAt_succ (args : List String) (i : Nat) (h : i + 1 < args.length) :
    args[i + 1]? = some (argAt args ((i + 1 : Nat) : Int)) := by
  simp [argAt, List.getD, List.getElem?_eq_getElem h]

theorem main_paths (toLower : String → String) (w : World) (args : List String) :
    (main toLower w args).paths? =
      if (parseArgs args).1 ≠ -1 then
        some (argAt args (parseArgs args).1,
          if (parseArgs args).2 ≠ -1 then argAt args (parseArgs args).2 else "")
      else none := by
  unfold main
  by_cases h : (parseArgs args).1 ≠ -1
  · simp only [if_pos h]
    split <;> rfl
  · simp only [if_neg h]
    rfl

theorem main_usage (toLower : String → String) (w : World) (args : List String)
    (h : (parseArgs args).1 = -1) :
    main toLower w args = .usage [.text "Please provide a file path using the --file argument."] := by
  unfold main
  simp [h]

/-- C10: `main` goes beyond the usage hint exactly when `--file` stands at some position
that is not the last argument; the input path is then the argument after the last such
position, and the output path is the argument after the last non-final `--output`, or
the empty string when there is none. Otherwise `main` prints the usage hint only:
neither the estimator nor the goroutines run. -/
theorem main_starts_iff_file_flag (toLower : String → String) (w : World)
    (args : List String) :
    ((main toLower w args).paths?.isSome ↔ ∃ i, FlagAt "--file" args i) ∧
    (∀ filePath outputPath, (main toLower w args).paths? = some (filePath, outputPath) →
      (∃ i, LastFlagAt "--file" args i ∧ args[i + 1]? = some filePath) ∧
      ((∃ j, LastFlagAt "--output" args j ∧ args[j + 1]? = some outputPath) ∨
        ((∀ j, ¬ FlagAt "--output" args j) ∧ outputPath = ""))) ∧
    ((main toLower w args).paths? = none →
      main toLower w args =
        .usage [.text "Please provide a file path using the --file argument."]) := by
  have hp := main_paths toLower w args
  obtain ⟨hfile, hout⟩ := parseArgs_spec args
  have hneg : ∀ i : Nat, ((i + 1 : Nat) : Int) ≠ -1 := fun i => by omega
  refine ⟨?_, ?_, ?_⟩
  · rcases hfile with ⟨hx, hno⟩ | ⟨i, hlast, hx⟩
    · rw [hp, if_neg (by simp [hx])]
      simp only [Option.isSome_none, Bool.false_eq_true, false_iff]
      rintro ⟨i, hi⟩
      exact hno i hi
    · rw [hp, if_pos (by rw [hx]; exact hneg i)]
      simp only [Option.isSome_some, true_iff]
      exact ⟨i, hlast.1⟩
  · intro filePath outputPath heq
    rcases hfile with ⟨hx, _⟩ | ⟨i, hlast, hx⟩
    · rw [hp, if_neg (by simp [hx])] at heq
      cases heq
    · rw [hp, if_pos (by rw [hx]; exact hneg i)] at heq
      have h1 := (Prod.mk.inj (Option.some.inj heq)).1
      have h2 := (Prod.mk.inj (Option.some.inj heq)).2
      refine ⟨⟨i, hlast, ?_⟩, ?_⟩
      · rw [← h1, hx]
        exact argAt_succ args i hlast.1.1
      · rcases hout with ⟨hy, hno⟩ | ⟨j, hlastj, hy⟩
        · right
          rw [if_neg (by simp [hy])] at h2
          exact ⟨hno, h2.symm⟩
        · left
          rw [if_pos (by rw [hy]; exact hneg j)] at h2
          refine ⟨j, hlastj, ?_⟩
          rw [← h2, hy]
          exact argAt_succ args j hlastj.1.1
  · intro hnone
    rcases hfile with ⟨hx, _⟩ | ⟨i, _, hx⟩
    · exact main_usage toLower w args hx
    · rw [hp, if_pos (by rw [hx]; exact hneg i)] at hnone
      cases hnone

/-- The paths chosen for the arguments `gocsv --file in.csv --output out.json`. -/
theorem main_starts_iff_file_flag_witness :
    (main asciiToLower exampleWorld
        ["gocsv", "--file", "in.csv", "--output", "out.json"]).paths? =
        some ("in.csv", "out.json") ∧
      (∃ i, LastFlagAt "--file" ["gocsv", "--file", "in.csv", "--output", "out.json"] i ∧
        ["gocsv", "--file", "in.csv", "--output", "out.json"][i + 1]? = some "in.csv") :=
  ⟨by decide,
    ((main_starts_iff_file_flag asciiToLower exampleWorld
      ["gocsv", "--file", "in.csv", "--output", "out.json"]).2.1 "in.csv" "out.json"
      (by decide)).1⟩

/-! ## The JSON encoding -/

theorem hexDigit_ne_newline (n : Nat) : hexDigit n ≠ '\n' := by
  have hmem : hexDigit n ∈ '0' :: hex := by
    unfold hexDigit
    rw [List.getD_eq_getElem?_getD]
    cases h : hex[n]? with
    | none => simp
    | some c => exact List.mem_cons_of_mem _ (List.getElem?_mem h)
  intro e
  rw [e] at hmem
  revert hmem
  decide

theorem newline_not_mem_escapeChar (c : Char) : '\n' ∉ escapeChar c := by
  have hh := hexDigit_ne_newline
  unfold escapeChar
  split_ifs with h1 h2 h3 h4 h5 h6 h7 h8
  · rcases h1 with rfl | rfl <;> decide
  · decide
  · decide
  · decide
  · decide
  · decide
  · simp only [List.mem_cons, List.mem_singleton, List.not_mem_nil, or_false, not_or]
    exact ⟨by decide, by decide, by decide, by decide, fun e => hh _ e.symm,
      fun e => hh _ e.symm⟩
  · simp only [List.mem_cons, List.mem_singleton, List.not_mem_nil, or_false, not_or]
    exact ⟨by decide, by decide, by decide, by decide, by decide, fun e => hh _ e.symm⟩
  · simp only [List.mem_singleton]
    intro e
    apply h4
    rw [← e]
    rfl

theorem count_newline_jsonString (s : String) : (jsonString s).count '\n' = 0 := by
  apply List.count_eq_zero.2
  unfold jsonString
  have hq : ¬ '\n' = dquote := by decide
  intro h
  rcases List.mem_cons.1 h with h | h
  · exact hq h
  · rcases List.mem_append.1 h with h | h
    · obtain ⟨l, hl, hmem⟩ := List.mem_flatten.1 h
      obtain ⟨c, _, rfl⟩ := List.mem_map.1 hl
      exact newline_not_mem_escapeChar c hmem
    · exact hq (List.mem_singleton.1 h)

theorem count_newline_jsonMember (e : String × String) : (jsonMember e).count '\n' = 0 := by
  simp [jsonMember, List.count_append, count_newline_jsonString]

theorem count_newline_jsonMoreMembers (entries : List (String × String)) :
    (jsonMoreMembers entries).count '\n' = entries.length := by
  induction entries with
  | nil => simp [jsonMoreMembers]
  | cons e rest ih =>
    simp [jsonMoreMembers, List.count_append, count_newline_jsonMember, ih, List.count_cons]

theorem insertEntry_eq (e : String × String) (l : List (String × String)) :
    insertEntry e l = List.orderedInsert entryLe e l := by
  induction l with
  | nil => rfl
  | cons x rest ih =>
    simp only [insertEntry, List.orderedInsert, entryLe, ih]

theorem sortEntries_eq (l : List (String × String)) :
    sortEntries l = List.insertionSort entryLe l := by
  induction l with
  | nil => rfl
  | cons x rest ih => simp only [sortEntries, List.insertionSort, insertEntry_eq, ih]

theorem keyLe_total : ∀ a b : List Char, keyLe a b = true ∨ keyLe b a = true := by
  intro a
  induction a with
  | nil => intro b; left; simp [keyLe]
  | cons x xs ih =>
    intro b
    cases b with
    | nil => right; simp [keyLe]
    | cons y ys =>
      simp only [keyLe, Bool.or_eq_true, Bool.and_eq_true, decide_eq_true_eq, beq_iff_eq]
      rcases Nat.lt_trichotomy x.toNat y.toNat with h | h | h
      · exact Or.inl (Or.inl h)
      · rcases ih ys with h' | h'
        · exact Or.inl (Or.inr ⟨h, h'⟩)
        · exact Or.inr (Or.inr ⟨h.symm, h'⟩)
      · exact Or.inr (Or.inl h)

theorem keyLe_trans : ∀ a b c : List Char, keyLe a b = true → keyLe b c = true →
    keyLe a c = true := by
  intro a
  induction a with
  | nil => intro b c _ _; simp [keyLe]
  | cons x xs ih =>
    intro b c hab hbc
    cases b with
    | nil => simp [keyLe] at hab
    | cons y ys =>
      cases c with
      | nil => simp [keyLe] at hbc
      | cons z zs =>
        simp only [keyLe, Bool.or_eq_true, Bool.and_eq_true, decide_eq_true_eq,
          beq_iff_eq] at hab hbc ⊢
        rcases hab with h1 | ⟨h1, h1'⟩
        · rcases hbc with h2 | ⟨h2, _⟩
          · exact Or.inl (by omega)
          · exact Or.inl (by omega)
        · rcases hbc with h2 | ⟨h2, h2'⟩
          · exact Or.inl (by omega)
          · exact Or.inr ⟨by omega, ih ys zs h1' h2'⟩

theorem sortEntries_perm (row : Row) : (sortEntries row).Perm row := by
  rw [sortEntries_eq]
  exact List.perm_insertionSort entryLe row

theorem sortEntries_sorted (row : Row) : (sortEntries row).Pairwise entryLe := by
  rw [sortEntries_eq]
  exact @List.sorted_insertionSort _ entryLe _ ⟨fun a b => keyLe_total a.1.data b.1.data⟩
    ⟨fun a b c => keyLe_trans a.1.data b.1.data c.1.data⟩ row

theorem newlines_encodeRow (row : Row) :
    newlines (encodeRow row) = if row = [] then 1 else row.length + 2 := by
  have hlen : (sortEntries row).length = row.length := (sortEntries_perm row).length_eq
  unfold newlines encodeRow
  cases hs : sortEntries row with
  | nil =>
    rw [hs] at hlen
    have : row = [] := List.length_eq_zero.1 hlen.symm
    simp [this]
  | cons e rest =>
    rw [hs] at hlen
    have : row ≠ [] := by
      intro h
      rw [h] at hlen
      simp at hlen
    simp only [if_neg this, ← hlen, List.length_cons]
    simp [List.count_append, List.count_cons, count_newline_jsonMember,
      count_newline_jsonMoreMembers]

theorem getLast?_encodeRow (row : Row) : (encodeRow row).data.getLast? = some '\n' := by
  unfold encodeRow
  cases sortEntries row with
  | nil => rfl
  | cons e rest =>
    simp only [List.getLast?_append, List.getLast?_cons_cons, List.getLast?_singleton]
    rfl

theorem hexDigit_spec : ∀ k, k < 16 → hexValue (hexDigit k) = k ∧ hexDigit k ∈ hex := by decide

theorem keyLe_iff (a b : List Char) : keyLe a b = true ↔ ¬ List.Lex (· < ·) b a := by
  induction a generalizing b with
  | nil =>
    simp only [keyLe, true_iff]
    intro h
    cases h
  | cons x xs ih =>
    cases b with
    | nil =>
      simp only [keyLe, Bool.false_eq_true, false_iff, not_not]
      exact List.Lex.nil
    | cons y ys =>
      have hxy : x < y ↔ x.toNat < y.toNat := by
        rw [Char.lt_def]; exact Iff.rfl
      have hyx : y < x ↔ y.toNat < x.toNat := by
        rw [Char.lt_def]; exact Iff.rfl
      have hEq : x.toNat = y.toNat → x = y := fun h => by
        rw [← Char.ofNat_toNat x, ← Char.ofNat_toNat y, h]
      simp only [keyLe, Bool.or_eq_true, Bool.and_eq_true, decide_eq_true_eq, beq_iff_eq, ih]
      constructor
      · rintro (h | ⟨h1, h2⟩) hlt
        · cases hlt with
          | cons h' => omega
          | rel h' => rw [hyx] at h'; omega
        · cases hlt with
          | cons h' => exact h2 h'
          | rel h' => rw [hyx] at h'; omega
      · intro hnlt
        by_cases h : x.toNat < y.toNat
        · exact Or.inl h
        · right
          have hge : ¬ y.toNat < x.toNat := fun h' => hnlt (List.Lex.rel (hyx.2 h'))
          have he : x = y := hEq (by omega)
          subst he
          exact ⟨rfl, fun h' => hnlt (List.Lex.cons h')⟩

theorem entryLe_iff (a b : String × String) : entryLe a b ↔ a.1 ≤ b.1 := by
  unfold entryLe
  rw [keyLe_iff, String.le_iff_toList_le, ← not_lt]
  exact Iff.rfl

theorem intercalate_members (e : String × String) (rest : List (String × String)) :
    [' ', ' '] ++ jsonMember e ++ jsonMoreMembers rest =
      List.intercalate [',', '\n'] ((e :: rest).map memberText) := by
  induction rest generalizing e with
  | nil => simp [jsonMoreMembers, memberText, jsonMember, List.intercalate]
  | cons x xs ih =>
    have h := ih x
    simp only [List.intercalate, List.map_cons, List.intersperse, List.flatten_cons] at h ⊢
    rw [← h]
    simp [jsonMoreMembers, memberText, jsonMember]

theorem encodeRow_data (row : Row) : (encodeRow row).data = objectText (sortEntries row) := by
  unfold encodeRow objectText
  cases hs : sortEntries row with
  | nil => simp
  | cons e rest =>
    simp only [reduceCtorEq, if_false]
    rw [← intercalate_members]
    simp

theorem jsonUnescape_backslash (e : Char) (rest : List Char) :
    jsonUnescape (backslash :: e :: rest) =
      if e = 'u' then
        match rest with
        | a :: b :: c₂ :: d :: rest₂ =>
          if a ∈ hex ∧ b ∈ hex ∧ c₂ ∈ hex ∧ d ∈ hex then
            (jsonUnescape rest₂).map fun s =>
              Char.ofNat (4096 * hexValue a + 256 * hexValue b + 16 * hexValue c₂ + hexValue d)
                :: s
          else none
        | _ => none
      else if e = dquote ∨ e = backslash ∨ e = '/' then (jsonUnescape rest).map fun s => e :: s
      else if e = 'b' then (jsonUnescape rest).map fun s => Char.ofNat 8 :: s
      else if e = 'f' then (jsonUnescape rest).map fun s => Char.ofNat 12 :: s
      else if e = 'n' then (jsonUnescape rest).map fun s => Char.ofNat 10 :: s
      else if e = 'r' then (jsonUnescape rest).map fun s => Char.ofNat 13 :: s
      else if e = 't' then (jsonUnescape rest).map fun s => Char.ofNat 9 :: s
      else none := by
  rw [jsonUnescape.eq_def]
  simp only [if_true]

theorem jsonUnescape_plain (c : Char) (rest : List Char) (h1 : c ≠ backslash)
    (h2 : ¬ (c = dquote ∨ c.toNat < 32)) :
    jsonUnescape (c :: rest) = (jsonUnescape rest).map fun s => c :: s := by
  rw [jsonUnescape.eq_def]
  simp only [if_neg h1, if_neg h2]

theorem jsonUnescape_escapeChar (c : Char) (rest : List Char) :
    jsonUnescape (escapeChar c ++ rest) = (jsonUnescape rest).map fun s => c :: s := by
  have hx := hexDigit_spec
  have hc := Char.ofNat_toNat c
  unfold escapeChar
  split_ifs with h1 h2 h3 h4 h5 h6 h7 h8
  · have hne : ¬ c = 'u' := by
      rcases h1 with rfl | rfl <;> decide
    have hor : c = dquote ∨ c = backslash ∨ c = '/' := by tauto
    rw [List.cons_append, List.cons_append, List.nil_append, jsonUnescape_backslash]
    simp only [if_neg hne, if_pos hor]
  · rw [← hc, h2]
    simp only [List.cons_append, List.nil_append]
    rw [jsonUnescape_backslash, if_neg (by decide), if_neg (by decide), if_pos rfl]
  · rw [← hc, h3]
    simp only [List.cons_append, List.nil_append]
    rw [jsonUnescape_backslash, if_neg (by decide), if_neg (by decide), if_neg (by decide), if_pos rfl]
  · rw [← hc, h4]
    simp only [List.cons_append, List.nil_append]
    rw [jsonUnescape_backslash, if_neg (by decide), if_neg (by decide), if_neg (by decide), if_neg (by decide), if_pos rfl]
  · rw [← hc, h5]
    simp only [List.cons_append, List.nil_append]
    rw [jsonUnescape_backslash, if_neg (by decide), if_neg (by decide), if_neg (by decide), if_neg (by decide), if_neg (by decide), if_pos rfl]
  · rw [← hc, h6]
    simp only [List.cons_append, List.nil_append]
    rw [jsonUnescape_backslash, if_neg (by decide), if_neg (by decide), if_neg (by decide), if_neg (by decide), if_neg (by decide), if_neg (by decide), if_pos rfl]
  · have hlt : c.toNat < 256 := by
      rcases h7 with h | rfl | rfl | rfl
      · omega
      · decide
      · decide
      · decide
    have hd := hx (c.toNat / 16) (by omega)
    have hm := hx (c.toNat % 16) (by omega)
    have h0 : hexValue '0' = 0 ∧ '0' ∈ hex := by decide
    simp only [List.cons_append, List.nil_append]
    rw [jsonUnescape_backslash]
    simp only [if_true, h0.2, hd.2, hm.2, and_self, h0.1, hd.1, hm.1]
    have : 4096 * 0 + 256 * 0 + 16 * (c.toNat / 16) + c.toNat % 16 = c.toNat := by omega
    rw [this, hc]
  · have hm := hx (c.toNat % 16) (by omega)
    have h0 : hexValue '0' = 0 ∧ '0' ∈ hex := by decide
    have h2' : hexValue '2' = 2 ∧ '2' ∈ hex := by decide
    simp only [List.cons_append, List.nil_append]
    rw [jsonUnescape_backslash]
    simp only [if_true, h0.2, h2'.2, hm.2, and_self, h0.1, h2'.1, hm.1]
    have : 4096 * 2 + 256 * 0 + 16 * 2 + c.toNat % 16 = c.toNat := by omega
    rw [this, hc]
  · have hb : c ≠ backslash := fun h => h1 (Or.inr h)
    have hq : ¬ (c = dquote ∨ c.toNat < 32) := by
      rintro (h | h)
      · exact h1 (Or.inl h)
      · exact h7 (Or.inl h)
    rw [List.cons_append, List.nil_append, jsonUnescape_plain c rest hb hq]

theorem jsonUnescape_body (s : List Char) :
    jsonUnescape (s.map escapeChar).flatten = some s := by
  induction s with
  | nil => rfl
  | cons c rest ih =>
    rw [List.map_cons, List.flatten_cons, jsonUnescape_escapeChar, ih]
    rfl

/-- C4, as stated, fails: the row of `Alice,30` under the header `name,age` is written
over four lines, with four newlines, and not as the one-line text of the claim. -/
theorem encodeRow_spans_several_lines :
    encodeRow [("name", "Alice"), ("age", "30")] =
        "\x7b\n  \"age\": \"30\",\n  \"name\": \"Alice\"\n\x7d\n" ∧
      newlines (encodeRow [("name", "Alice"), ("age", "30")]) = 4 ∧
      encodeRow [("name", "Alice"), ("age", "30")] ≠
        "\x7b\"age\": \"30\", \"name\": \"Alice\"\x7d\n" := by
  decide

/-- C4, amended: `writeJSON` serializes every row as one JSON object indented by two
spaces, one member per line: the text is `objectText` of the entries of the row in
ascending order of their keys (the order of code points, which is the bytewise order of
the UTF-8 encodings), each member written as the key, a colon, a space and the value,
both as JSON strings; a JSON string is a quoted body without newline that denotes the
original text. The text of a row with `n > 0` keys contains `n + 2` newlines, that of an
empty row is `{}` and one newline, and every text ends with a newline. For the input
`name,age / Alice,30 / Bob,25` the output is the two indented objects of Alice and of
Bob. -/
theorem encodeRow_is_indented_object :
    (∀ row : Row, ∃ entries : List (String × String), entries.Perm row ∧
      entries.Pairwise (fun a b => a.1 ≤ b.1) ∧ (encodeRow row).data = objectText entries) ∧
    (∀ s : String, ∃ body, jsonString s = dquote :: (body ++ [dquote]) ∧
      jsonUnescape body = some s.data ∧ '\n' ∉ body) ∧
    (∀ row : Row, newlines (encodeRow row) = if row = [] then 1 else row.length + 2) ∧
    (∀ row : Row, (encodeRow row).data.getLast? = some '\n') ∧
    encodeRow [] = "\x7b\x7d\n" ∧
    outputOfRun asciiToLower exampleWorld ["gocsv", "--file", "in.csv", "--output", "out.json"]
        40 =
      some ["\x7b\n  \"age\": \"30\",\n  \"name\": \"Alice\"\n\x7d\n",
        "\x7b\n  \"age\": \"25\",\n  \"name\": \"Bob\"\n\x7d\n"] := by
  refine ⟨fun row => ⟨sortEntries row, sortEntries_perm row, ?_, encodeRow_data row⟩,
    fun s => ⟨(s.data.map escapeChar).flatten, rfl, jsonUnescape_body s.data, ?_⟩,
    newlines_encodeRow, getLast?_encodeRow, by decide, by decide⟩
  · exact (sortEntries_sorted row).imp fun h => (entryLe_iff _ _).1 h
  · intro h
    obtain ⟨l, hl, hmem⟩ := List.mem_flatten.1 h
    obtain ⟨c, _, rfl⟩ := List.mem_map.1 hl
    exact newline_not_mem_escapeChar c hmem

/-! ## Runs of the three goroutines -/

theorem mem_next (w : World) (outputPath : String) (s t : Sys) :
    t ∈ next w outputPath s ↔ s.crashed = false ∧
      (readAndParseCSVStep s = some t ∨ writeJSONStep w outputPath s = some t ∨
        mainStep s = some t) := by
  unfold next
  cases hc : s.crashed
  · simp only [Bool.false_eq_true, if_false, List.mem_append, Option.mem_toList,
      Option.mem_def, true_and, or_assoc]
  · simp

theorem reachable_step (w : World) (outputPath : String) (s t u : Sys)
    (h : t ∈ next w outputPath s) (h' : Reachable w outputPath t u) :
    Reachable w outputPath s u :=
  Relation.ReflTransGen.head h h'

theorem stepsLeft_producer (s t : Sys) (h : readAndParseCSVStep s = some t) :
    stepsLeft t < stepsLeft s := by
  unfold readAndParseCSVStep at h
  split at h
  · cases h
  · split at h
    · cases h
      simp only [stepsLeft, Writer.rank, List.length_cons, *]
      omega
    · cases h
  all_goals
    cases h
    simp only [stepsLeft, List.length_cons, List.length_nil, *]
    omega

theorem stepsLeft_writer (w : World) (outputPath : String) (s t : Sys)
    (h : writeJSONStep w outputPath s = some t) : stepsLeft t < stepsLeft s := by
  unfold writeJSONStep at h
  split at h
  · split at h <;> cases h <;> simp only [stepsLeft, Writer.rank, *] <;> omega
  · split at h
    · cases h
      simp only [stepsLeft, Writer.rank, *]
      omega
    · cases h
  · split at h <;> cases h <;> simp only [stepsLeft, Writer.rank, *] <;> omega
  · cases h

theorem stepsLeft_main (s t : Sys) (h : mainStep s = some t) : stepsLeft t < stepsLeft s := by
  unfold mainStep at h
  split at h
  · rename_i hc
    cases h
    simp [stepsLeft, hc.1]
  · cases h

/-- Every step of a run decreases `stepsLeft`: all runs are finite. -/
theorem stepsLeft_decreases (w : World) (outputPath : String) (s t : Sys)
    (h : t ∈ next w outputPath s) : stepsLeft t < stepsLeft s := by
  rcases (mem_next w outputPath s t).1 h with ⟨_, h1 | h1 | h1⟩
  · exact stepsLeft_producer s t h1
  · exact stepsLeft_writer w outputPath s t h1
  · exact stepsLeft_main s t h1

/-- From every state a run reaches a state in which no goroutine can take a step. -/
theorem exists_final (w : World) (outputPath : String) :
    ∀ (n : Nat) (s : Sys), stepsLeft s ≤ n →
      ∃ t, Reachable w outputPath s t ∧ Final w outputPath t := by
  intro n
  induction n with
  | zero =>
    intro s hs
    refine ⟨s, Relation.ReflTransGen.refl, ?_⟩
    unfold Final
    cases hn : next w outputPath s with
    | nil => rfl
    | cons t rest =>
      have := stepsLeft_decreases w outputPath s t (by rw [hn]; exact List.mem_cons_self _ _)
      omega
  | succ n ih =>
    intro s hs
    cases hn : next w outputPath s with
    | nil => exact ⟨s, Relation.ReflTransGen.refl, hn⟩
    | cons t rest =>
      have hmem : t ∈ next w outputPath s := by rw [hn]; exact List.mem_cons_self _ _
      have hlt := stepsLeft_decreases w outputPath s t hmem
      obtain ⟨u, hu, hfin⟩ := ih t (by omega)
      exact ⟨u, reachable_step w outputPath s t u hmem hu, hfin⟩

theorem pendingOutput_congr (s t : Sys) (hw : t.writer = s.writer) (ho : t.output = s.output)
    (hs : sentRows t.producer = sentRows s.producer) : pendingOutput t = pendingOutput s := by
  unfold pendingOutput
  rw [hw, ho, hs]

theorem closeLast_tail (e : Event) (rest : List Event) (he : e ≠ .close)
    (h : closeLast (e :: rest)) : closeLast rest := by
  cases e <;> first | exact h | exact absurd rfl he

theorem reported_drop (allowed : String → Err → Prop) (stdout : List Out) (e : Event)
    (rest : List Event) (he : ∀ l err, e ≠ .println l err)
    (h : ∀ label err, allowed label err →
      Out.failure label err ∈ stdout ∨ Event.println label err ∈ e :: rest) :
    ∀ label err, allowed label err →
      Out.failure label err ∈ stdout ∨ Event.println label err ∈ rest := by
  intro label err ha
  rcases h label err ha with h' | h'
  · exact Or.inl h'
  · rcases List.mem_cons.1 h' with h'' | h''
    · exact absurd h''.symm (he label err)
    · exact Or.inr h''

/-- The invariant is kept when the producer performs an action other than a send, a
close or `wg.Done()`, which may print a line. -/
theorem good_internal (allowed : String → Err → Prop) (target : List String) (s : Sys)
    (e : Event) (rest : List Event) (out : List Out)
    (hg : Good allowed target s) (hp : s.producer = e :: rest)
    (hsend : sentRows (e :: rest) = sentRows rest) (hclose : e ≠ .close)
    (hdone : e ≠ .wgDone) (hmono : ∀ o ∈ s.stdout, o ∈ out)
    (hnew : ∀ l err, Out.failure l err ∈ out →
      Out.failure l err ∈ s.stdout ∨ e = .println l err)
    (hprinted : ∀ l err, e = .println l err → Out.failure l err ∈ out) :
    Good allowed target { s with producer := rest, stdout := out } := by
  obtain ⟨h1, h2, h3, h4, h5, h6, h7, h8, h9, h10, h11, h12⟩ := hg
  rw [hp] at h2 h3 h6 h7 h9 h12
  refine ⟨h1, fun h => h2 (List.mem_cons_of_mem _ h),
    fun l err h => h3 l err (List.mem_cons_of_mem _ h), ?_, h5, ?_, ?_, h8, ?_, ?_, ?_, ?_⟩
  · rw [← h4]
    exact pendingOutput_congr s _ rfl rfl (by rw [hp]; exact hsend.symm)
  · intro hc
    exact hsend ▸ h6 hc
  · intro hc
    obtain ⟨a, b⟩ := h7 hc
    refine ⟨closeLast_tail e rest hclose a, ?_⟩
    rcases List.mem_cons.1 b with h | h
    · exact absurd h.symm hclose
    · exact h
  · show s.wg = (rest.count Event.wgDone : Int) + if s.writer = .done then 0 else 1
    rw [h9]
    congr 2
    cases e <;> first | rfl | exact absurd rfl hdone
  · intro hw
    exact hmono _ (h10 hw)
  · intro l err hmem
    rcases hnew l err hmem with h | h
    · exact h11 l err h
    · exact h3 l err (h ▸ List.mem_cons_self _ _)
  · intro l err ha
    rcases h12 l err ha with h | h
    · exact Or.inl (hmono _ h)
    · rcases List.mem_cons.1 h with h' | h'
      · exact Or.inl (hprinted l err h'.symm)
      · exact Or.inr h'

theorem good_producer (allowed : String → Err → Prop) (target : List String) (s t : Sys)
    (hg : Good allowed target s) (h : readAndParseCSVStep s = some t) :
    Good allowed target t := by
  have hsilent : ∀ (e : Event) (rest : List Event), s.producer = e :: rest →
      sentRows (e :: rest) = sentRows rest → e ≠ .close → e ≠ .wgDone →
      (∀ l err, e ≠ .println l err) → Good allowed target { s with producer := rest } :=
    fun e rest hp hs hc hd hpr =>
      good_internal allowed target s e rest s.stdout hg hp hs hc hd (fun _ ho => ho)
        (fun _ _ hm => Or.inl hm) (fun l err he => absurd he (hpr l err))
  unfold readAndParseCSVStep at h
  split at h
  · cases h
  · rename_i row rest hp
    split at h
    · rename_i n hw
      cases h
      obtain ⟨h1, h2, h3, h4, h5, h6, h7, h8, h9, h10, h11, h12⟩ := hg
      rw [hp] at h2 h3 h6 h7 h9 h12
      have hclosed : s.closed = false := by
        cases hc : s.closed with
        | false => rfl
        | true => exact absurd (h6 hc) (by simp [sentRows])
      refine ⟨h1, fun h => h2 (List.mem_cons_of_mem _ h),
        fun l err h => h3 l err (List.mem_cons_of_mem _ h), ?_, ?_, ?_, ?_, ?_, ?_, h10, h11,
        reported_drop allowed s.stdout _ rest (fun _ _ he => by cases he) h12⟩
      · rw [← h4]
        simp [pendingOutput, hw, hp, sentRows]
      · simp only [h5, hw]
        simp
      · intro hc
        rw [hclosed] at hc
        cases hc
      · intro _
        obtain ⟨a, b⟩ := h7 hclosed
        refine ⟨a, ?_⟩
        rcases List.mem_cons.1 b with h | h
        · cases h
        · exact h
      · intro hd
        cases hd
      · rw [h9, hw]
        simp [List.count_cons]
    · cases h
  · rename_i label err rest hp
    cases h
    refine good_internal allowed target s _ rest _ hg hp rfl (by simp) (by simp)
      (fun o ho => List.mem_append_left _ ho) ?_ ?_
    · intro l e hm
      rcases List.mem_append.1 hm with h' | h'
      · exact Or.inl h'
      · right
        have := List.mem_singleton.1 h'
        injection this with ha hb
        rw [ha, hb]
    · intro l e he
      injection he with ha hb
      rw [ha, hb]
      exact List.mem_append_right _ (List.mem_singleton_self _)
  · rename_i rest hp
    cases h
    obtain ⟨h1, h2, h3, h4, h5, h6, h7, h8, h9, h10, h11, h12⟩ := hg
    rw [hp] at h2 h3 h6 h7 h9 h12
    refine ⟨h1, fun h => h2 (List.mem_cons_of_mem _ h),
      fun l err h => h3 l err (List.mem_cons_of_mem _ h), ?_, h5, ?_, ?_, fun _ => rfl, ?_,
      h10, h11, reported_drop allowed s.stdout _ rest (fun _ _ he => by cases he) h12⟩
    · rw [← h4]
      exact pendingOutput_congr s _ rfl rfl (by rw [hp]; rfl)
    · intro _
      cases hc : s.closed with
      | false => exact (h7 hc).1
      | true => exact h6 hc
    · intro hc
      cases hc
    · rw [h9]
      simp [List.count_cons]
  · rename_i rest hp
    cases h
    obtain ⟨h1, h2, h3, h4, h5, h6, h7, h8, h9, h10, h11, h12⟩ := hg
    rw [hp] at h2 h3 h6 h7 h9 h12
    refine ⟨h1, fun h => h2 (List.mem_cons_of_mem _ h),
      fun l err h => h3 l err (List.mem_cons_of_mem _ h), ?_, h5, ?_, ?_, h8, ?_, h10, h11,
      reported_drop allowed s.stdout _ rest (fun _ _ he => by cases he) h12⟩
    · rw [← h4]
      exact pendingOutput_congr s _ rfl rfl (by rw [hp]; rfl)
    · intro hc
      exact h6 hc
    · intro hc
      obtain ⟨a, b⟩ := h7 hc
      refine ⟨a, ?_⟩
      rcases List.mem_cons.1 b with h | h
      · cases h
      · exact h
    · simp only [h9, List.count_cons_self]
      push_cast
      ring
  · rename_i rest hp
    exact absurd (hp ▸ List.mem_cons_self _ _) hg.noCrash
  · rename_i m rest hp
    cases h
    exact hsilent _ rest hp rfl (by simp) (by simp) (fun _ _ he => by cases he)
  · rename_i rest hp
    cases h
    exact hsilent _ rest hp rfl (by simp) (by simp) (fun _ _ he => by cases he)
  · rename_i rest hp
    cases h
    exact hsilent _ rest hp rfl (by simp) (by simp) (fun _ _ he => by cases he)
  · rename_i rest hp
    cases h
    exact hsilent _ rest hp rfl (by simp) (by simp) (fun _ _ he => by cases he)

theorem good_writer (allowed : String → Err → Prop) (target : List String) (w : World)
    (outputPath : String) (s t : Sys)
    (hcreate : osCreate w outputPath = none) (hwrite : ∀ n, w.write n = none)
    (hg : Good allowed target s) (h : writeJSONStep w outputPath s = some t) :
    Good allowed target t := by
  obtain ⟨h1, h2, h3, h4, h5, h6, h7, h8, h9, h10, h11, h12⟩ := hg
  unfold writeJSONStep at h
  split at h
  · rename_i hw
    rw [hcreate] at h
    cases h
    refine ⟨h1, h2, h3, ?_, ?_, h6, h7, ?_, ?_, h10, h11, h12⟩
    · rw [← h4]
      simp [pendingOutput, hw]
    · simp
    · intro hd
      cases hd
    · rw [h9, hw]
      simp
  · rename_i n hw
    split at h
    · rename_i hc
      cases h
      refine ⟨h1, h2, h3, ?_, ?_, h6, h7, fun _ => hc, ?_, h10, h11, h12⟩
      · rw [← h4]
        simp [pendingOutput, hw, h6 hc]
      · simp only [h5, hw]
        simp
      · rw [h9, hw]
        simp
    · cases h
  · rename_i n line hw
    rw [hwrite n] at h
    cases h
    have hout : s.output ≠ none := by
      intro ho
      rw [h5.1 ho] at hw
      cases hw
    obtain ⟨texts, htexts⟩ := Option.ne_none_iff_exists'.1 hout
    refine ⟨h1, h2, h3, ?_, ?_, h6, h7, ?_, ?_, h10, h11, h12⟩
    · rw [← h4]
      simp [pendingOutput, hw, htexts]
    · simp [htexts]
    · intro hd
      cases hd
    · rw [h9, hw]
      simp
  · cases h

theorem good_main (allowed : String → Err → Prop) (target : List String) (s t : Sys)
    (hg : Good allowed target s) (h : mainStep s = some t) : Good allowed target t := by
  obtain ⟨h1, h2, h3, h4, h5, h6, h7, h8, h9, h10, h11, h12⟩ := hg
  unfold mainStep at h
  split at h
  · cases h
    refine ⟨h1, h2, h3, ?_, h5, h6, h7, h8, h9, ?_, ?_, ?_⟩
    · rw [← h4]
      exact pendingOutput_congr s _ rfl rfl rfl
    · intro _
      simp [Completed]
    · intro l err hmem
      rcases List.mem_append.1 hmem with hm | hm
      · exact h11 l err hm
      · simp at hm
    · intro l err ha
      exact (h12 l err ha).imp (fun hm => List.mem_append_left _ hm) id
  · cases h

theorem good_reachable (allowed : String → Err → Prop) (target : List String) (w : World)
    (outputPath : String) (s t : Sys)
    (hcreate : osCreate w outputPath = none) (hwrite : ∀ n, w.write n = none)
    (hg : Good allowed target s) (h : Reachable w outputPath s t) : Good allowed target t := by
  induction h with
  | refl => exact hg
  | tail _ hstep ih =>
    rcases (mem_next w outputPath _ _).1 hstep with ⟨_, h1 | h1 | h1⟩
    · exact good_producer allowed target _ _ ih h1
    · exact good_writer allowed target w outputPath _ _ hcreate hwrite ih h1
    · exact good_main allowed target _ _ ih h1

theorem steps_none_of_final (w : World) (outputPath : String) (s : Sys)
    (hc : s.crashed = false) (hfin : Final w outputPath s) :
    readAndParseCSVStep s = none ∧ writeJSONStep w outputPath s = none ∧ mainStep s = none := by
  have hno : ∀ t, t ∉ next w outputPath s := fun t ht => by
    rw [hfin] at ht
    cases ht
  refine ⟨?_, ?_, ?_⟩
  · cases h : readAndParseCSVStep s with
    | none => rfl
    | some t => exact absurd ((mem_next w outputPath s t).2 ⟨hc, Or.inl h⟩) (hno t)
  · cases h : writeJSONStep w outputPath s with
    | none => rfl
    | some t => exact absurd ((mem_next w outputPath s t).2 ⟨hc, Or.inr (Or.inl h)⟩) (hno t)
  · cases h : mainStep s with
    | none => rfl
    | some t => exact absurd ((mem_next w outputPath s t).2 ⟨hc, Or.inr (Or.inr h)⟩) (hno t)

/-- A state of a good run in which no goroutine can take a step is the end of the
conversion: the file holds the target, and `main` has printed its last lines. -/
theorem good_final (allowed : String → Err → Prop) (target : List String) (w : World)
    (outputPath : String) (s : Sys)
    (hcreate : osCreate w outputPath = none) (hwrite : ∀ n, w.write n = none)
    (hg : Good allowed target s) (hfin : Final w outputPath s) :
    s.output = some target ∧ Completed s ∧ s.producer = [] ∧ s.writer = .done := by
  obtain ⟨hP, hW, hM⟩ := steps_none_of_final w outputPath s hg.notCrashed hfin
  have hwr : (∃ n, s.writer = .ranging n ∧ s.closed = false) ∨ s.writer = .done := by
    unfold writeJSONStep at hW
    cases hw : s.writer with
    | start => simp [hw, hcreate] at hW
    | ranging n =>
      simp only [hw] at hW
      cases hc : s.closed with
      | false => exact Or.inl ⟨n, rfl, rfl⟩
      | true => simp [hc] at hW
    | encoding n line => simp [hw, hwrite n] at hW
    | done => exact Or.inr rfl
  have hprod : s.producer = [] := by
    cases hp : s.producer with
    | nil => rfl
    | cons e rest =>
      exfalso
      unfold readAndParseCSVStep at hP
      rw [hp] at hP
      cases e with
      | send row =>
        rcases hwr with ⟨n, hw, _⟩ | hw
        · simp [hw] at hP
        · have := hg.afterClose (hg.writerDone hw)
          rw [hp] at this
          simp [sentRows] at this
      | _ => simp at hP
  have hclosed : s.closed = true := by
    cases hc : s.closed with
    | true => rfl
    | false =>
      have := (hg.beforeClose hc).2
      rw [hprod] at this
      cases this
  have hdone : s.writer = .done := by
    rcases hwr with ⟨n, _, hc⟩ | hw
    · rw [hclosed] at hc
      cases hc
    · exact hw
  have hwg : s.wg = 0 := by
    rw [hg.counter, hprod, hdone]
    simp
  have hwait : s.waiting = false := by
    unfold mainStep at hM
    cases hc : s.waiting with
    | false => rfl
    | true => simp [hc, hwg] at hM
  have hpend := hg.pending
  unfold pendingOutput at hpend
  rw [hdone] at hpend
  have hout : s.output ≠ none := fun ho => by
    rw [hg.created.1 ho] at hdone
    cases hdone
  obtain ⟨texts, htexts⟩ := Option.ne_none_iff_exists'.1 hout
  rw [htexts] at hpend
  simp only [Option.getD_some] at hpend
  exact ⟨by rw [htexts, hpend], hg.completed hwait, hprod, hdone⟩

theorem println_not_mem_sendAll (rows : List Row) (label : String) (err : Err) :
    Event.println label err ∉ sendAll rows := by
  induction rows with
  | nil => simp [sendAll]
  | cons r rest ih =>
    simp only [sendAll, List.map_cons, List.flatten_cons, List.cons_append, List.nil_append,
      List.mem_cons, not_or] at ih ⊢
    exact ⟨by simp, by simp, ih⟩

theorem count_wgDone_sendAll (rows : List Row) (tail : List Event) :
    (sendAll rows ++ tail).count Event.wgDone = tail.count Event.wgDone := by
  induction rows with
  | nil => simp [sendAll]
  | cons r rest ih =>
    simp only [sendAll, List.map_cons, List.flatten_cons, List.cons_append,
      List.nil_append] at ih ⊢
    rw [List.count_cons_of_ne (by simp), List.count_cons_of_ne (by simp), ih]

theorem closeLast_sendAll (rows : List Row) (tail : List Event) (h : closeLast tail) :
    closeLast (sendAll rows ++ tail) := by
  induction rows with
  | nil => simpa [sendAll] using h
  | cons r rest ih =>
    simp only [sendAll, List.map_cons, List.flatten_cons, List.cons_append,
      List.nil_append] at ih ⊢
    exact ih

theorem printlns_facts (allowed : String → Err → Prop) (tl tail : List Event)
    (htl : ∀ e ∈ tl, ∃ label err, e = Event.println label err ∧ allowed label err) :
    Event.crash ∉ tl ∧ sentRows (tl ++ tail) = sentRows tail ∧
      (closeLast tail → closeLast (tl ++ tail)) ∧
      (tl ++ tail).count Event.wgDone = tail.count Event.wgDone := by
  induction tl with
  | nil => exact ⟨by simp, rfl, fun h => h, rfl⟩
  | cons e rest ih =>
    obtain ⟨label, err, rfl, _⟩ := htl e (List.mem_cons_self _ _)
    obtain ⟨h1, h2, h3, h4⟩ := ih fun x hx => htl x (List.mem_cons_of_mem _ hx)
    refine ⟨?_, ?_, ?_, ?_⟩
    · intro h
      rcases List.mem_cons.1 h with h | h
      · cases h
      · exact h1 h
    · simpa [sentRows] using h2
    · intro h
      exact h3 h
    · rw [List.cons_append, List.count_cons_of_ne (by simp), h4]

/-- The invariant holds when `main` has started the goroutines on an input whose record
loop sends `rows`, then prints the error lines `tl` (none at the end of the input) and
goes on to the epilogue. -/
theorem good_init (allowed : String → Err → Prop) (rows : List Row) (tl : List Event)
    (est : Int) (filePath : String)
    (htl : ∀ e ∈ tl, ∃ label err, e = Event.println label err ∧ allowed label err)
    (hall : ∀ label err, allowed label err → Event.println label err ∈ tl) :
    Good allowed (rows.map encodeRow)
      { producer := .barDefault est :: (sendAll rows ++ (tl ++ epilogue))
        writer := .start
        closed := false
        wg := 2
        output := none
        stdout := [.text "Reading file...", .text "=================", .estimated est]
        waiting := true
        crashed := false
        filePath := filePath } := by
  obtain ⟨f1, f2, f3, f4⟩ := printlns_facts allowed tl epilogue htl
  refine ⟨rfl, ?_, ?_, ?_, (by simp), (fun h => by cases h), (fun _ => ⟨?_, ?_⟩),
    (fun h => by cases h), ?_, (fun h => by cases h), ?_, ?_⟩
  · intro h
    rcases List.mem_cons.1 h with h | h
    · cases h
    · rcases List.mem_append.1 h with h | h
      · exact crash_not_mem_sendAll rows h
      · rcases List.mem_append.1 h with h | h
        · exact f1 h
        · simp [epilogue] at h
  · intro label err h
    rcases List.mem_cons.1 h with h | h
    · cases h
    · rcases List.mem_append.1 h with h | h
      · exact absurd h (println_not_mem_sendAll rows label err)
      · rcases List.mem_append.1 h with h | h
        · obtain ⟨l, e, he, ha⟩ := htl _ h
          injection he with h1 h2
          rw [h1, h2]
          exact ha
        · simp [epilogue] at h
  · show (sentRows (.barDefault est :: (sendAll rows ++ (tl ++ epilogue)))).map encodeRow = _
    simp only [sentRows, sentRows_sendAll, f2, sentRows_epilogue, List.append_nil]
  · show closeLast (.barDefault est :: (sendAll rows ++ (tl ++ epilogue)))
    exact closeLast_sendAll rows _ (f3 rfl)
  · show Event.close ∈ Event.barDefault est :: (sendAll rows ++ (tl ++ epilogue))
    simp [epilogue]
  · show (2 : Int) =
      ((Event.barDefault est :: (sendAll rows ++ (tl ++ epilogue))).count Event.wgDone : Int) + 1
    rw [List.count_cons_of_ne (by simp), count_wgDone_sendAll, f4]
    rfl
  · intro label err h
    simp at h
  · intro label err ha
    right
    exact List.mem_cons_of_mem _ (List.mem_append_right _ (List.mem_append_left _ (hall label err ha)))

theorem main_started (toLower : String → String) (w : World) (args : List String)
    (filePath outputPath : String) (init : Sys)
    (h : main toLower w args = .started filePath outputPath init) :
    ∃ est, init =
      { producer := readAndParseCSV toLower (w.csv filePath) est
        writer := .start
        closed := false
        wg := 2
        output := none
        stdout := [.text "Reading file...", .text "=================", .estimated est]
        waiting := true
        crashed := false
        filePath := filePath } := by
  unfold main at h
  dsimp only at h
  split at h
  · split at h
    · cases h
    · rename_i est _
      injection h with h1 h2 h3
      subst h1
      exact ⟨est, h3.symm⟩
  · cases h

theorem readAndParseCSV_all_good (toLower : String → String) (file : CsvFile)
    (headers : List String) (rows : List (List String)) (est : Int)
    (hopen : file.openErr = none) (hraws : file.raws = .record headers :: rows.map .record)
    (hlen : ∀ r ∈ rows, r.length = headers.length) :
    readAndParseCSV toLower file est =
      .barDefault est :: (sendAll (rows.map (zipRow toLower headers)) ++ epilogue) := by
  obtain ⟨openErr, raws⟩ := file
  simp only at hopen hraws
  subst hopen hraws
  have h0 : csvRead 0 (.record headers) = (.ok headers, (headers.length : Int)) := by
    simp [csvRead]
  have h := recordLoop_good toLower headers rows [] hlen
  simp only [List.append_nil] at h
  simp only [readAndParseCSV, h0, h]
  rfl

/-! ## The conversion as a whole -/

/-- C1: on a CSV input that opens, with a header row and `N` data rows that each have as
many fields as the header, run with an output file that can be created and written,
every run of the conversion is finite and ends (no goroutine can step) with an output
file of exactly `N` texts, the `k`-th being the encoding of the row built from the
`k`-th data row, with `Conversion complete!` printed, no error line printed and no
panic; the key set of every row is the set of the lower-cased header names. With `N = 0`
the output file is created and empty. -/
theorem conversion_emits_one_object_per_row (toLower : String → String) (w : World)
    (args : List String) (filePath outputPath : String) (init : Sys)
    (headers : List String) (rows : List (List String))
    (hmain : main toLower w args = .started filePath outputPath init)
    (hopen : (w.csv filePath).openErr = none)
    (hraws : (w.csv filePath).raws = .record headers :: rows.map .record)
    (hlen : ∀ r ∈ rows, r.length = headers.length)
    (hcreate : osCreate w outputPath = none) (hwrite : ∀ n, w.write n = none) :
    (∀ s t, t ∈ next w outputPath s → stepsLeft t < stepsLeft s) ∧
    (∃ t, Reachable w outputPath init t ∧ Final w outputPath t) ∧
    (∀ t, Reachable w outputPath init t → Final w outputPath t →
      t.output = some (rows.map fun r => encodeRow (zipRow toLower headers r)) ∧
      Completed t ∧ t.crashed = false ∧ ∀ label err, Out.failure label err ∉ t.stdout) ∧
    (∀ r ∈ rows, buildRow toLower headers r = some (zipRow toLower headers r) ∧
      ∀ k, k ∈ (zipRow toLower headers r).keys ↔ k ∈ headers.map toLower) := by
  obtain ⟨est, hinit⟩ := main_started toLower w args filePath outputPath init hmain
  have hprod := readAndParseCSV_all_good toLower (w.csv filePath) headers rows est hopen hraws
    hlen
  rw [hprod] at hinit
  have hgood := good_init (fun _ _ => False) (rows.map (zipRow toLower headers)) [] est
    filePath (fun _ h => by cases h) (fun _ _ h => h.elim)
  simp only [List.nil_append] at hgood
  rw [← hinit, List.map_map] at hgood
  refine ⟨stepsLeft_decreases w outputPath, exists_final w outputPath _ init le_rfl, ?_, ?_⟩
  · intro t hr hfin
    have hg := good_reachable _ _ w outputPath init t hcreate hwrite hgood hr
    obtain ⟨h1, h2, _, _⟩ := good_final _ _ w outputPath t hcreate hwrite hg hfin
    exact ⟨h1, h2, hg.notCrashed, fun label err h => hg.quiet label err h⟩
  · intro r hr
    refine ⟨buildRow_eq_zipRow _ _ _ (le_of_eq (hlen r hr)), fun k => ?_⟩
    rw [zipRow_mem_keys, hlen r hr, List.take_length]

/-- The conversion of the three-line example file ends with the two objects of Alice and Bob in the output file. -/
theorem conversion_emits_one_object_per_row_witness :
    ∃ t, Reachable exampleWorld "out.json" exampleInit t ∧ Final exampleWorld "out.json" t ∧
      t.output = some ["\x7b\n  \"age\": \"30\",\n  \"name\": \"Alice\"\n\x7d\n",
        "\x7b\n  \"age\": \"25\",\n  \"name\": \"Bob\"\n\x7d\n"] ∧
      Completed t := by
  have h := conversion_emits_one_object_per_row asciiToLower exampleWorld
    ["gocsv", "--file", "in.csv", "--output", "out.json"] "in.csv" "out.json" exampleInit
    ["name", "age"] [["Alice", "30"], ["Bob", "25"]] (by decide) rfl rfl (by decide) rfl
    (fun _ => rfl)
  obtain ⟨t, hr, hf⟩ := h.2.1
  exact ⟨t, hr, hf, (h.2.2.1 t hr hf).1.trans (by decide), (h.2.2.1 t hr hf).2.1⟩

theorem osCreate_empty (w : World) :
    osCreate w "" = some (.other "open : no such file or directory") := by
  simp [osCreate]

theorem stuck_step (w : World) (row : Row) (more : List Event) (s t : Sys)
    (hs : Stuck row more s) (h : t ∈ next w "" s) : Stuck row more t := by
  obtain ⟨h1, h2, h3, h4, h5, h6⟩ := hs
  rcases (mem_next w "" s t).1 h with ⟨_, hstep | hstep | hstep⟩
  · unfold readAndParseCSVStep at hstep
    rcases h5 with hp | ⟨m, hp⟩
    · rw [hp] at hstep
      rcases h6 with ⟨hw, _⟩ | ⟨hw, _⟩ <;> simp [hw] at hstep
    · rw [hp] at hstep
      cases hstep
      exact ⟨h1, h2, h3, h4, Or.inl rfl, h6⟩
  · unfold writeJSONStep at hstep
    rcases h6 with ⟨hw, hwg⟩ | ⟨hw, _⟩
    · rw [hw] at hstep
      simp only [osCreate_empty] at hstep
      cases hstep
      refine ⟨h1, h2, ?_, h4, h5, Or.inr ⟨rfl, ?_, ?_⟩⟩
      · intro hc
        unfold Completed at hc
        rcases List.mem_append.1 hc with hc | hc
        · exact h3 hc
        · simp at hc
      · show s.wg - 1 = 1
        omega
      · show _ ∈ s.stdout ++ _
        simp
    · rw [hw] at hstep
      cases hstep
  · unfold mainStep at hstep
    have hwg : s.wg ≠ 0 := by
      rcases h6 with ⟨_, hwg⟩ | ⟨_, hwg, _⟩ <;> omega
    simp [hwg] at hstep

theorem stuck_reachable (w : World) (row : Row) (more : List Event) (s t : Sys)
    (hs : Stuck row more s) (h : Reachable w "" s t) : Stuck row more t := by
  induction h with
  | refl => exact hs
  | tail _ hstep ih => exact stuck_step w row more _ _ ih hstep

theorem stuck_final (w : World) (row : Row) (more : List Event) (s : Sys)
    (hs : Stuck row more s) (hfin : Final w "" s) :
    s.producer = .send row :: more ∧ s.writer = .done ∧ s.wg = 1 ∧
      Out.failure "Error creating JSON file:" (.other "open : no such file or directory") ∈
        s.stdout := by
  obtain ⟨hP, hW, _⟩ := steps_none_of_final w "" s hs.notCrashed hfin
  have hprod : s.producer = .send row :: more := by
    rcases hs.blocked with hp | ⟨m, hp⟩
    · exact hp
    · unfold readAndParseCSVStep at hP
      rw [hp] at hP
      cases hP
  rcases hs.writer with ⟨hw, _⟩ | ⟨hw, hwg, hout⟩
  · unfold writeJSONStep at hW
    rw [hw] at hW
    simp [osCreate_empty] at hW
  · exact ⟨hprod, hw, hwg, hout⟩

theorem outputPath_empty (toLower : String → String) (w : World) (args : List String)
    (filePath outputPath : String) (init : Sys)
    (hmain : main toLower w args = .started filePath outputPath init)
    (hflag : ∀ j, ¬ FlagAt "--output" args j) : outputPath = "" := by
  have hp := main_paths toLower w args
  rw [hmain] at hp
  simp only [MainResult.paths?] at hp
  split at hp
  · have h2 := (Prod.mk.inj (Option.some.inj hp)).2
    rcases (parseArgs_spec args).2 with ⟨hy, _⟩ | ⟨j, hlast, _⟩
    · rw [if_neg (by simp [hy])] at h2
      exact h2
    · exact absurd hlast.1 (hflag j)
  · cases hp

/-- C8 on the code: when no `--output` flag is given and the input opens and holds a
header and a first data row with as many fields, the output path is empty, `os.Create`
fails and the writer returns; in every state the run can reach, `main` is still in
`wg.Wait()`, `Conversion complete!` is not printed and no file exists; and the run gets
stuck in a state where the writer has returned after printing the create error and the
producer is blocked in its first send: a deadlock. -/
theorem missing_output_never_completes (toLower : String → String) (w : World)
    (args : List String) (filePath outputPath : String) (init : Sys)
    (headers first : List String) (rest : List RawRead)
    (hmain : main toLower w args = .started filePath outputPath init)
    (hflag : ∀ j, ¬ FlagAt "--output" args j)
    (hopen : (w.csv filePath).openErr = none)
    (hraws : (w.csv filePath).raws = .record headers :: .record first :: rest)
    (hlen : first.length = headers.length) :
    outputPath = "" ∧
    (∀ t, Reachable w outputPath init t →
      ¬ Completed t ∧ t.waiting = true ∧ t.output = none) ∧
    (∃ t, Reachable w outputPath init t ∧ Final w outputPath t ∧
      Out.failure "Error creating JSON file:" (.other "open : no such file or directory") ∈
        t.stdout ∧
      t.writer = .done ∧ t.wg = 1 ∧
      ∃ more, t.producer = .send (zipRow toLower headers first) :: more) := by
  have hempty := outputPath_empty toLower w args filePath outputPath init hmain hflag
  subst hempty
  obtain ⟨est, hinit⟩ := main_started toLower w args filePath "" init hmain
  have hprod : readAndParseCSV toLower (w.csv filePath) est =
      .barDefault est :: .send (zipRow toLower headers first) :: .barAdd ::
        recordLoop toLower headers headers.length rest := by
    have h0 : csvRead 0 (.record headers) = (.ok headers, (headers.length : Int)) := by
      simp [csvRead]
    have h := recordLoop_good toLower headers [first] rest (by simpa using hlen)
    cases hfile : w.csv filePath with
    | mk openErr raws =>
      rw [hfile] at hopen hraws
      simp only at hopen hraws
      subst hopen hraws
      simp only [List.map_cons, List.map_nil, List.cons_append, List.nil_append] at h
      simp only [readAndParseCSV, h0, h]
      rfl
  rw [hprod] at hinit
  have hstuck : Stuck (zipRow toLower headers first)
      (.barAdd :: recordLoop toLower headers headers.length rest) init := by
    rw [hinit]
    exact ⟨rfl, rfl, by simp [Completed], rfl, Or.inr ⟨est, rfl⟩, Or.inl ⟨rfl, rfl⟩⟩
  refine ⟨rfl, fun t hr => ?_, ?_⟩
  · have ht := stuck_reachable w _ _ init t hstuck hr
    exact ⟨ht.notCompleted, ht.waiting, ht.noOutput⟩
  · obtain ⟨t, hr, hfin⟩ := exists_final w "" _ init le_rfl
    have ht := stuck_reachable w _ _ init t hstuck hr
    obtain ⟨h1, h2, h3, h4⟩ := stuck_final w _ _ t ht hfin
    exact ⟨t, hr, hfin, h4, h2, h3, _, h1⟩

/-- The run of `gocsv --file in.csv` on the three-line example file gets stuck before the send of the first row, without `Conversion complete!`. -/
theorem missing_output_never_completes_witness :
    ∃ t, Reachable exampleWorld "" exampleInit t ∧ Final exampleWorld "" t ∧
      ¬ Completed t ∧ t.waiting = true ∧ t.output = none ∧ t.writer = .done ∧
      ∃ more, t.producer = .send [("name", "Alice"), ("age", "30")] :: more := by
  have hflag : ∀ j, ¬ FlagAt "--output" ["gocsv", "--file", "in.csv"] j := by
    rintro j ⟨h1, h2⟩
    have hj : j = 0 ∨ j = 1 := by
      simp only [List.length_cons, List.length_nil] at h1
      omega
    rcases hj with rfl | rfl <;> simp at h2
  have h := missing_output_never_completes asciiToLower exampleWorld
    ["gocsv", "--file", "in.csv"] "in.csv" "" exampleInit ["name", "age"] ["Alice", "30"]
    [.record ["Bob", "25"]] (by decide) hflag rfl rfl (by decide)
  have hz : zipRow asciiToLower ["name", "age"] ["Alice", "30"] =
      [("name", "Alice"), ("age", "30")] := by decide
  obtain ⟨t, hr, hf, _, hw, _, more, hp⟩ := h.2.2
  rw [hz] at hp
  exact ⟨t, hr, hf, (h.2.1 t hr).1, (h.2.1 t hr).2.1, (h.2.1 t hr).2.2, hw, more, hp⟩

theorem readAndParseCSV_mismatch_file (toLower : String → String) (file : CsvFile)
    (headers : List String) (good : List (List String)) (bad : List String)
    (rest : List RawRead) (est : Int) (hopen : file.openErr = none)
    (hraws : file.raws = .record headers :: (good.map .record ++ .record bad :: rest))
    (hne : headers ≠ []) (hgood : ∀ r ∈ good, r.length = headers.length)
    (hbad : bad.length ≠ headers.length) :
    readAndParseCSV toLower file est =
      .barDefault est :: (sendAll (good.map (zipRow toLower headers)) ++
        .println "Error reading CSV record:" .fieldCount :: epilogue) := by
  obtain ⟨openErr, raws⟩ := file
  simp only at hopen hraws
  subst hopen hraws
  exact readAndParseCSV_mismatch toLower headers good bad rest est hne hgood hbad

/-- C5, as stated, fails: for the header `a,b` and the data row `1` the reader reports
the field-count error, the producer prints it and leaves the loop, and no row is sent;
and the conversion of the file `A,B / 1,2 / 3 / 4,5` writes one object, that of the row
`1,2`: none for the short row `3`, and none for the row after it. -/
theorem short_record_emits_nothing :
    readAndParseCSV asciiToLower ⟨none, [.record ["a", "b"], .record ["1"]]⟩ 1 =
        [.barDefault 1, .println "Error reading CSV record:" .fieldCount, .close, .barFinish,
          .fileClose, .wgDone] ∧
      sentRows (readAndParseCSV asciiToLower ⟨none, [.record ["a", "b"], .record ["1"]]⟩ 1) =
        [] ∧
      outputOfRun asciiToLower raggedWorld ["gocsv", "--file", "in.csv", "--output", "out.json"]
          40 =
        some ["\x7b\n  \"a\": \"1\",\n  \"b\": \"2\"\n\x7d\n"] := by
  decide

/-- C5, amended: a data row with fewer fields than the header list is rejected by the
CSV reader with the field-count error. In the conversion (input that opens, output file
that can be created and written) the producer sends the rows of the records before it,
prints the record read error and leaves the loop; every run ends with an output file
holding exactly the objects of the rows before the short row, none for the short row or
a later one, with the error line and `Conversion complete!` printed. The row-building
loop alone, applied to such a record, yields a map whose keys are exactly the
lower-cased names of the first headers, as many as the record has fields, so that it has
fewer keys than the header list has names, and which holds field `i` under header `i`
when these keys are distinct. -/
theorem short_record_is_rejected (toLower : String → String) (w : World)
    (args : List String) (filePath outputPath : String) (init : Sys)
    (headers : List String) (good : List (List String)) (bad : List String)
    (rest : List RawRead)
    (hmain : main toLower w args = .started filePath outputPath init)
    (hopen : (w.csv filePath).openErr = none)
    (hraws : (w.csv filePath).raws =
      .record headers :: (good.map .record ++ .record bad :: rest))
    (hgood : ∀ r ∈ good, r.length = headers.length) (hbad : bad.length < headers.length)
    (hcreate : osCreate w outputPath = none) (hwrite : ∀ n, w.write n = none) :
    (∃ est, init.producer =
      .barDefault est :: (sendAll (good.map (zipRow toLower headers)) ++
        .println "Error reading CSV record:" .fieldCount :: epilogue)) ∧
    (∃ t, Reachable w outputPath init t ∧ Final w outputPath t) ∧
    (∀ t, Reachable w outputPath init t → Final w outputPath t →
      t.output = some (good.map fun r => encodeRow (zipRow toLower headers r)) ∧
      Out.failure "Error reading CSV record:" .fieldCount ∈ t.stdout ∧ Completed t) ∧
    buildRow toLower headers bad = some (zipRow toLower headers bad) ∧
    (∀ k, k ∈ (zipRow toLower headers bad).keys ↔
      k ∈ (headers.take bad.length).map toLower) ∧
    (zipRow toLower headers bad).keys.length < headers.length ∧
    (((headers.take bad.length).map toLower).Nodup →
      (headers.take bad.length).map (fun h => (zipRow toLower headers bad).get? (toLower h)) =
        bad.map some) := by
  have hne : headers ≠ [] := by
    intro h
    subst h
    simp at hbad
  obtain ⟨est, hinit⟩ := main_started toLower w args filePath outputPath init hmain
  have hprod := readAndParseCSV_mismatch_file toLower (w.csv filePath) headers good bad rest
    est hopen hraws hne hgood (by omega)
  rw [hprod] at hinit
  have hgoodInit := good_init
    (fun l e => l = "Error reading CSV record:" ∧ e = Err.fieldCount)
    (good.map (zipRow toLower headers)) [.println "Error reading CSV record:" .fieldCount] est
    filePath
    (fun e he => ⟨_, _, List.mem_singleton.1 he, rfl, rfl⟩)
    (fun l e ha => by rw [ha.1, ha.2]; exact List.mem_singleton_self _)
  simp only [List.singleton_append] at hgoodInit
  rw [← hinit, List.map_map] at hgoodInit
  refine ⟨⟨est, by rw [hinit]⟩, exists_final w outputPath _ init le_rfl, ?_,
    buildRow_eq_zipRow _ _ _ (by omega), zipRow_mem_keys toLower headers bad, ?_,
    zipRow_lookup toLower headers bad (by omega)⟩
  · intro t hr hfin
    have hg := good_reachable _ _ w outputPath init t hcreate hwrite hgoodInit hr
    obtain ⟨h1, h2, h3, _⟩ := good_final _ _ w outputPath t hcreate hwrite hg hfin
    refine ⟨h1, ?_, h2⟩
    rcases hg.reported "Error reading CSV record:" .fieldCount ⟨rfl, rfl⟩ with h | h
    · exact h
    · rw [h3] at h
      cases h
  · have h := zipRow_length_le toLower headers bad
    simp only [Row.keys, List.length_map]
    omega

/-- The conversion of the file `A,B / 1,2 / 3 / 4,5` ends with one object in the output
file, that of `1,2`, and the error line printed; the loop alone would give a one-key map
for the row `3`. -/
theorem short_record_is_rejected_witness :
    ∃ t, Reachable raggedWorld "out.json" raggedInit t ∧ Final raggedWorld "out.json" t ∧
      t.output = some ["\x7b\n  \"a\": \"1\",\n  \"b\": \"2\"\n\x7d\n"] ∧
      Out.failure "Error reading CSV record:" .fieldCount ∈ t.stdout ∧ Completed t ∧
      buildRow asciiToLower ["A", "B"] ["3"] = some [("a", "3")] := by
  have h := short_record_is_rejected asciiToLower raggedWorld
    ["gocsv", "--file", "in.csv", "--output", "out.json"] "in.csv" "out.json" raggedInit
    ["A", "B"] [["1", "2"]] ["3"] [.record ["4", "5"]] (by decide) rfl rfl (by decide)
    (by decide) rfl (fun _ => rfl)
  obtain ⟨t, hr, hf⟩ := h.2.1
  exact ⟨t, hr, hf, (h.2.2.1 t hr hf).1.trans (by decide), (h.2.2.1 t hr hf).2.1,
    (h.2.2.1 t hr hf).2.2, h.2.2.2.1.trans (by decide)⟩

end GoCsvRoutine
